import Mathlib

/-!
# Verification of the Scrypted plugin/device runtime core

This development shallowly embeds the core algorithms of the Scrypted server
runtime (`server/src/scrypted-server-main.ts`, class `ScryptedRuntime`) and
proves properties of them:

* the unhandled-rejection policy of the host process,
* the plugin-host auto-restart scheduling (`setupPluginHostAutoRestart`),
* device upsert and its interface-set resolution (`upsertDevice`),
* the startup repair and mixin-cycle-clearing pass (`start`),
* mixin invalidation propagation and rebuild (`invalidateMixins`),
* recursive device removal (`removeDevice`).

Device ids, plugin ids and interface names are opaque string tokens in the
source; they are modelled here as natural-number tokens.  JS `undefined`
values are modelled with `Option`.  A few helper functions live in repository
modules outside the embedded file (`state.ts`, `plugin/plugin-device.ts`,
`mixin/mixin-cycle.ts`); those are modelled from the specification and marked
as such in their doc comments.
-/

namespace Scrypted

/-! ## Deterministic interface sorting

`PluginDeviceProxyHandler.sortInterfaces` lives in `plugin/plugin-device.ts`.
-/

/-- Insert a token into a sorted list, keeping it sorted. -/
def insertSorted (x : Nat) : List Nat → List Nat
  | [] => [x]
  | y :: ys => if x ≤ y then x :: y :: ys else y :: insertSorted x ys

/-- Insertion sort on token lists. -/
def sortTokens : List Nat → List Nat
  | [] => []
  | x :: xs => insertSorted x (sortTokens xs)

/-- Modelled from the spec: `PluginDeviceProxyHandler.sortInterfaces`
(in `plugin/plugin-device.ts`, not part of the embedded sources) produces
"the union ... sorted deterministically": duplicates are removed and the
result is deterministically ordered. -/
def sortInterfaces (l : List Nat) : List Nat :=
  sortTokens l.dedup

theorem mem_insertSorted (a x : Nat) (l : List Nat) :
    a ∈ insertSorted x l ↔ a = x ∨ a ∈ l := by
  induction l with
  | nil => simp [insertSorted]
  | cons y ys ih =>
    by_cases h : x ≤ y
    · simp [insertSorted, h]
    · simp [insertSorted, h, ih]
      tauto

theorem perm_insertSorted (x : Nat) (l : List Nat) :
    (insertSorted x l).Perm (x :: l) := by
  induction l with
  | nil => simp [insertSorted]
  | cons y ys ih =>
    by_cases h : x ≤ y
    · simp [insertSorted, h]
    · simp only [insertSorted, if_neg h]
      calc y :: insertSorted x ys
          |>.Perm (y :: x :: ys) := List.Perm.cons y ih
        _ |>.Perm (x :: y :: ys) := List.Perm.swap x y ys

theorem sorted_insertSorted (x : Nat) (l : List Nat)
    (h : l.Sorted (· ≤ ·)) : (insertSorted x l).Sorted (· ≤ ·) := by
  induction l with
  | nil => simp [insertSorted]
  | cons y ys ih =>
    by_cases hxy : x ≤ y
    · simp only [insertSorted, if_pos hxy]
      refine List.sorted_cons.mpr ⟨?_, h⟩
      intro b hb
      rcases List.mem_cons.mp hb with rfl | hb'
      · exact hxy
      · exact le_trans hxy (List.rel_of_sorted_cons h b hb')
    · simp only [insertSorted, if_neg hxy]
      have hys : ys.Sorted (· ≤ ·) := List.Sorted.of_cons h
      refine List.sorted_cons.mpr ⟨?_, ih hys⟩
      intro b hb
      rcases (mem_insertSorted b x ys).mp hb with hbx | hbys
      · subst hbx
        omega
      · exact List.rel_of_sorted_cons h b hbys

theorem perm_sortTokens (l : List Nat) : (sortTokens l).Perm l := by
  induction l with
  | nil => simp [sortTokens]
  | cons x xs ih =>
    exact (perm_insertSorted x (sortTokens xs)).trans (List.Perm.cons x ih)

theorem sorted_sortTokens (l : List Nat) : (sortTokens l).Sorted (· ≤ ·) := by
  induction l with
  | nil => simp [sortTokens]
  | cons x xs ih => exact sorted_insertSorted x (sortTokens xs) ih

theorem mem_sortInterfaces (a : Nat) (l : List Nat) :
    a ∈ sortInterfaces l ↔ a ∈ l := by
  unfold sortInterfaces
  rw [(perm_sortTokens l.dedup).mem_iff]
  exact List.mem_dedup

theorem sorted_sortInterfaces (l : List Nat) :
    (sortInterfaces l).Sorted (· ≤ ·) :=
  sorted_sortTokens l.dedup

theorem nodup_sortInterfaces (l : List Nat) : (sortInterfaces l).Nodup :=
  (perm_sortTokens l.dedup).nodup_iff.mpr l.nodup_dedup

/-- Two token lists with the same members canonicalize identically. -/
theorem sortInterfaces_eq_of_mem_iff {l₁ l₂ : List Nat}
    (h : ∀ a, a ∈ l₁ ↔ a ∈ l₂) : sortInterfaces l₁ = sortInterfaces l₂ := by
  refine List.eq_of_perm_of_sorted ?_ (sorted_sortInterfaces l₁) (sorted_sortInterfaces l₂)
  refine List.perm_of_nodup_nodup_toFinset_eq (nodup_sortInterfaces l₁)
    (nodup_sortInterfaces l₂) ?_
  ext a
  simp only [List.mem_toFinset, mem_sortInterfaces]
  exact h a

theorem sortInterfaces_idem (l : List Nat) :
    sortInterfaces (sortInterfaces l) = sortInterfaces l :=
  sortInterfaces_eq_of_mem_iff fun a => mem_sortInterfaces a l

/-! ## Unhandled promise rejections (`process.on('unhandledRejection')`) -/

/-- The constructor (JS class) of a rejection's error value.  `RPCResultError`
and `PluginError` are the two recognized remote-error classes; every other
class is collapsed into `other` with a tag. -/
inductive JsErrorClass where
  | rpcResultError
  | pluginError
  | other (tag : Nat)
deriving DecidableEq, Repr

/-- Outcome of the unhandled-rejection listener. -/
inductive RejectionOutcome where
  | rethrown
  | warned
deriving DecidableEq, Repr

/-- The `process.on('unhandledRejection', ...)` listener installed by
`scrypted-server-main.ts`: if the error's constructor is neither
`RPCResultError` nor `PluginError`, the error is rethrown (crashing the
host); otherwise a warning is logged.  `none` models a nullish rejection
value (`error?.constructor` is then `undefined`). -/
def unhandledRejection (error : Option JsErrorClass) : RejectionOutcome :=
  if error ≠ some .rpcResultError ∧ error ≠ some .pluginError then
    .rethrown
  else
    .warned

/-! ## Plugin host auto-restart (`setupPluginHostAutoRestart`) -/

/-- A scheduled restart timer: fires at `fireAt`, captured the exited host
object (`hid`) and its plugin id. -/
structure TimerM where
  fireAt : Nat
  hid : Nat
  pluginId : Nat
deriving DecidableEq, Repr

/-- Supervisor state slice: `plugins` is the `ScryptedRuntime.plugins`
registry (plugin id to the identity of the registered `PluginHost`),
`killedHids` the set of host objects whose `killed` flag is set,
`dataPlugins` the plugin ids present in the datastore, `timers` the pending
restart timers, `nextHid` a fresh-identity counter, and `restarts` a log of
`runPlugin` launches (plugin id, new host identity). -/
structure SupState where
  plugins : List (Nat × Nat)
  killedHids : List Nat
  dataPlugins : List Nat
  timers : List TimerM
  nextHid : Nat
  restarts : List (Nat × Nat)
deriving DecidableEq, Repr

/-- `ScryptedRuntime.killPlugin`: deregister the handle for the plugin id,
if any, and kill it. -/
def killPlugin (s : SupState) (pid : Nat) : SupState :=
  match s.plugins.lookup pid with
  | none => s
  | some h =>
    { s with
      plugins := s.plugins.filter (fun e => e.1 ≠ pid)
      killedHids := h :: s.killedHids }

/-- `ScryptedRuntime.runPlugin` (supervisor slice): kill any prior host for
the plugin id, construct a fresh host, register it, and log the launch. -/
def runPlugin (s : SupState) (pid : Nat) : SupState :=
  let s1 := killPlugin s pid
  { s1 with
    plugins := (pid, s1.nextHid) :: s1.plugins
    nextHid := s1.nextHid + 1
    restarts := (pid, s1.nextHid) :: s1.restarts }

/-- The `'exit'` listener from `setupPluginHostAutoRestart`, for a host with
identity `h` and plugin id `pid` exiting at time `t`:  if the host was
already killed explicitly, nothing happens; otherwise the host is killed and
a restart is scheduled `60000` ms later, capturing the host object. -/
def onExit (s : SupState) (h pid t : Nat) : SupState :=
  if h ∈ s.killedHids then
    s
  else
    { s with
      killedHids := h :: s.killedHids
      timers := { fireAt := t + 60000, hid := h, pluginId := pid } :: s.timers }

/-- The scheduled-restart callback from `setupPluginHostAutoRestart`: the
timer is consumed; the restart proceeds only when the registered handle is
still the very instance that exited and the Plugin record still exists,
otherwise it is silently abandoned. -/
def fireTimer (s : SupState) (tm : TimerM) : SupState :=
  let s0 := { s with timers := s.timers.filter (· ≠ tm) }
  if s0.plugins.lookup tm.pluginId ≠ some tm.hid then
    s0
  else if tm.pluginId ∉ s0.dataPlugins then
    s0
  else
    runPlugin s0 tm.pluginId

/-! ## Device upsert (`ScryptedRuntime.upsertDevice`)

The slice of `PluginDevice` state relevant to interface resolution.  JS
string tokens are naturals; the reserved token `emptyStrTok` models the empty
string `""`, which is falsy in JS (`!nativeId`) although it is a defined
value.  The synthetic plugin marker `ScryptedInterface.ScryptedPlugin` is the
token `scryptedPluginIface`.
-/

/-- Token modelling the empty JS string. -/
def emptyStrTok : Nat := 0

/-- Token modelling `ScryptedInterface.ScryptedPlugin`. -/
def scryptedPluginIface : Nat := 0

/-- JS truthiness test `!nativeId`: `undefined`/`null` and `""` are falsy. -/
def isFalsyNativeId : Option Nat → Bool
  | none => true
  | some s => s = emptyStrTok

/-- The persisted `PluginDevice` record, restricted to the fields the
interface-resolution claims are about (`name`/`type`/`room`/`info` and the
provider link are not read or written by the proved properties). -/
structure UDev where
  pdId : Nat
  pluginId : Nat
  nativeId : Option Nat
  providedInterfaces : List Nat
  interfaces : List Nat
  mixins : List Nat
deriving DecidableEq, Repr

/-- The `Device` descriptor supplied by a plugin to `upsertDevice`
(`nativeId` already normalized: JSON `null` over RPC is folded into
`none`). -/
structure UpsertInput where
  nativeId : Option Nat
  interfaces : List Nat
deriving DecidableEq, Repr

/-- The `providedInterfaces` computation of `upsertDevice` (lines
1341-1346): the synthetic plugin marker is added for a falsy native id and
filtered out otherwise, then the list is canonicalized. -/
def providedOf (dev : UpsertInput) : List Nat :=
  sortInterfaces
    (if isFalsyNativeId dev.nativeId then dev.interfaces ++ [scryptedPluginIface]
     else dev.interfaces.filter (· ≠ scryptedPluginIface))

/-- The resolved `interfaces` value: seeded from the previously stored list
only when a mixin list is present (line 1351: `if (mixins.length)`), then
re-unioned with the freshly provided list. -/
def resolvedOf (pd : UDev) (dev : UpsertInput) : List Nat :=
  sortInterfaces ((if pd.mixins ≠ [] then pd.interfaces else []) ++ providedOf dev)

/-- The per-device core of `upsertDevice` (lines 1326-1359): store the
recomputed provided and resolved interface lists and report whether either
stored list changed.  `setPluginDeviceState` lives in `state.ts`; modelled
from the spec: it compares against the last recorded value and returns
whether the value actually changed (structural comparison). -/
def upsertCompute (pd : UDev) (pid : Nat) (dev : UpsertInput) : UDev × Bool :=
  ({ pd with
      pluginId := pid
      nativeId := dev.nativeId
      providedInterfaces := providedOf dev
      interfaces := resolvedOf pd dev },
    (pd.providedInterfaces ≠ providedOf dev) || (pd.interfaces ≠ resolvedOf pd dev))

/-- The `findPluginDevice` predicate: same owning plugin and loosely equal
native id. -/
def devKey (pid : Nat) (nid : Option Nat) (d : UDev) : Bool :=
  d.pluginId = pid && d.nativeId = nid

/-- `ScryptedRuntime.upsertDevice`: find-or-create the `PluginDevice` record
for `(pluginId, nativeId)`, recompute its interface lists, store it back into
the id-keyed device table, and return whether the resolved interface set
changed.  `freshId` models `this.datastore.nextId()`. -/
def upsertDevice (table : List UDev) (pid : Nat) (dev : UpsertInput)
    (freshId : Nat) : List UDev × Bool :=
  let existing := table.find? (devKey pid dev.nativeId)
  let pd := existing.getD
    { pdId := freshId, pluginId := pid, nativeId := dev.nativeId
      providedInterfaces := [], interfaces := [], mixins := [] }
  let (pd', changed) := upsertCompute pd pid dev
  let table' :=
    if table.any (fun d => d.pdId = pd'.pdId) then
      table.map (fun d => if d.pdId = pd'.pdId then pd' else d)
    else
      table ++ [pd']
  (table', changed)

/-- The device record that `upsertDevice` stores: the found record for the
key — or a fresh one — run through `upsertCompute`. -/
def upsertedDevice (table : List UDev) (pid : Nat) (dev : UpsertInput)
    (freshId : Nat) : UDev :=
  (upsertCompute
    ((table.find? (devKey pid dev.nativeId)).getD
      { pdId := freshId, pluginId := pid, nativeId := dev.nativeId
        providedInterfaces := [], interfaces := [], mixins := [] })
    pid dev).1

/-- A sequence of `upsertDevice` calls for the same plugin (each paired with
the fresh id its call would draw). -/
def upsertSeq (table : List UDev) (pid : Nat) (ins : List (UpsertInput × Nat)) :
    List UDev :=
  ins.foldl (fun t i => (upsertDevice t pid i.1 i.2).1) table

/-- The startup repair of the plugin-root marker (lines 1421-1426 of
`ScryptedRuntime.start`): a device with a falsy native id whose
`providedInterfaces` lacks the synthetic plugin marker gets it pushed and
the list re-sorted. -/
def startupRepairDevice (pd : UDev) : UDev :=
  if isFalsyNativeId pd.nativeId && scryptedPluginIface ∉ pd.providedInterfaces then
    { pd with providedInterfaces :=
        sortInterfaces (pd.providedInterfaces ++ [scryptedPluginIface]) }
  else
    pd

/-! ## Startup mixin-cycle clearing (`ScryptedRuntime.start`, lines 1444-1450) -/

/-- The mixin graph read by the cycle guard: device id to its stored
`mixins` list. -/
def MixState := List (Nat × List Nat)

instance : DecidableEq MixState := by
  unfold MixState
  infer_instance

/-- `getState(device, mixins) || []`. -/
def mixinsOf (st : MixState) (id : Nat) : List Nat :=
  (st.lookup id).getD []

/-- `setState(device, mixins, [])`. -/
def clearMixins (st : MixState) (id : Nat) : MixState :=
  st.map (fun e => if e.1 = id then (e.1, ([] : List Nat)) else e)

/-- One step of successors in the mixin graph. -/
def stepSucc (st : MixState) (s : List Nat) : List Nat :=
  (s.map (mixinsOf st)).flatten

/-- Ids reachable from the seed set in at most `n` steps (cumulative). -/
def reachClose (st : MixState) : Nat → List Nat → List Nat
  | 0, s => s
  | n + 1, s => reachClose st n (s ++ (stepSucc st s).filter (· ∉ s))

/-- Modelled from the spec: `hasMixinCycle` (in `mixin/mixin-cycle.ts`, not
part of the embedded sources) decides whether the device participates in a
cycle of the chain-of-ownership graph "device → its mixin provider ids,
transitively": there is a nonempty mixin path from the device back to
itself. -/
def hasMixinCycle (st : MixState) (id : Nat) : Bool :=
  id ∈ reachClose st (st.length + 1) (mixinsOf st id)

/-- The startup cycle-clearing loop, in scan order: any device the check
finds in a cycle (against the current, already partially repaired state) has
its mixins cleared. -/
def cyclePass (st : MixState) (order : List Nat) : MixState :=
  order.foldl (fun s i => if hasMixinCycle s i then clearMixins s i else s) st

/-- Lines 1444-1450 of `start`: run the cycle guard over every device id of
the system state. -/
def startupCyclePass (st : MixState) : MixState :=
  cyclePass st (st.map Prod.fst)

/-! ## Mixin invalidation (`ScryptedRuntime.invalidateMixins`) -/

/-- One entry of a live proxy's mixin chain.  The terminal entry (the device
itself) has no `mixinProviderId` (`undefined` in the source). -/
structure MixinEntry where
  mixinProviderId : Option Nat
deriving DecidableEq, Repr

/-- One live device proxy: `this.devices[id]` together with its handler's
`mixinTable` (`none` models a handler whose table has not been built). -/
structure DevProxy where
  did : Nat
  mixinTable : Option (List MixinEntry)
deriving DecidableEq, Repr

/-- Observable effects of `invalidateMixins`: `released` models
`invalidateEntry` on a spliced-out chain entry, `terminalWarn` the
"attempt to invalidate mixin on actual device?" warning, `rebuilt` the
pass-two `rebuildMixinTable` call. -/
inductive MixEvent where
  | released (did : Nat) (provider : Option Nat)
  | terminalWarn (did : Nat)
  | rebuilt (did : Nat)
deriving DecidableEq, Repr

/-- Whether an event is a pass-two rebuild. -/
def MixEvent.isRebuilt : MixEvent → Bool
  | .rebuilt _ => true
  | _ => false

/-- The body of the `for (const device of Object.values(this.devices))` loop
of pass one, for the popped id `id` and one device: find the first chain
entry provided by `id`; if present, record the owning device in the result
set and re-enqueue it (push), then splice out and release head..match unless
the match is the terminal entry, which is only warned about. -/
def procDev (id : Nat) (d : DevProxy) (ret rem : List Nat) (log : List MixEvent) :
    DevProxy × List Nat × List Nat × List MixEvent :=
  match d.mixinTable with
  | none => (d, ret, rem, log)
  | some tbl =>
    match tbl.findIdx? (fun mt => mt.mixinProviderId = some id) with
    | none => (d, ret, rem, log)
    | some i =>
      let retRem := if d.did ∈ ret then (ret, rem) else (ret ++ [d.did], d.did :: rem)
      if i = tbl.length - 1 then
        (d, retRem.1, retRem.2, log ++ [.terminalWarn d.did])
      else
        ({ d with mixinTable := some (tbl.drop (i + 1)) }, retRem.1, retRem.2,
          log ++ (tbl.take (i + 1)).map (fun e => .released d.did e.mixinProviderId))

/-- Pass one's device loop over the whole proxy table, threading the result
set, the worklist and the event log. -/
def procDevs (id : Nat) : List DevProxy → List Nat → List Nat → List MixEvent →
    List DevProxy × List Nat × List Nat × List MixEvent
  | [], ret, rem, log => ([], ret, rem, log)
  | d :: ds, ret, rem, log =>
    let r1 := procDev id d ret rem log
    let r2 := procDevs id ds r1.2.1 r1.2.2.1 r1.2.2.2
    (r1.1 :: r2.1, r2.2)

/-- Pass one of `invalidateMixins`: drain the worklist (`remaining`, topmost
first — JS `pop()` takes the array's end, so the list is kept top-first).
`fuel` bounds the number of iterations; `none` means fuel ran out. -/
def mixLoop : Nat → List DevProxy → List Nat → List Nat → List MixEvent →
    Option (List DevProxy × List Nat × List MixEvent)
  | 0, devs, ret, rem, log =>
    match rem with
    | [] => some (devs, ret, log)
    | _ :: _ => none
  | fuel + 1, devs, ret, rem, log =>
    match rem with
    | [] => some (devs, ret, log)
    | id :: rest =>
      let r := procDevs id devs ret rest log
      mixLoop fuel r.1 r.2.1 r.2.2.1 r.2.2.2

/-- Fuel sufficient for pass one (proved below): every iteration pops one
worklist entry, and each push is paid for by a device id newly added to the
result set. -/
def mixFuel (ids : List Nat) (devs : List DevProxy) : Nat :=
  ids.length + 2 * devs.length + 1

/-- `ScryptedRuntime.invalidateMixins`: pass one propagates invalidation
over the live mixin chains from the initial id set (`remaining = [...ids]`,
processed LIFO); pass two then calls `rebuildMixinTable` on exactly the
collected ids, modelled by the `rebuilt` events appended to the log (the
rebuild itself lives in `plugin/plugin-device.ts`).  The returned proxy
table is the post-propagation state. -/
def invalidateMixins (ids : List Nat) (devs : List DevProxy) :
    Option (List DevProxy × List Nat × List MixEvent) :=
  match mixLoop (mixFuel ids devs) devs [] ids.reverse [] with
  | none => none
  | some (devs', ret, log) => some (devs', ret, log ++ ret.map .rebuilt)

/-- `R` is closed for initial set `S` over the chains of `devs`: a device's
id is in `R` whenever its chain contains an entry whose provider is in `S`
or in `R`.  The propagation result is the least such set. -/
def ClosedSet (S : List Nat) (devs : List DevProxy) (R : List Nat) : Prop :=
  ∀ d ∈ devs, ∀ tbl, d.mixinTable = some tbl →
    ∀ e ∈ tbl, ∀ p, e.mixinProviderId = some p → (p ∈ S ∨ p ∈ R) → d.did ∈ R

/-- How one proxy's chain can evolve during pass one: either untouched, or
its chain lost a nonempty strict prefix (so the terminal entry survives),
the device id was collected, and every spliced-out entry was released. -/
def ChainEvolved (ret : List Nat) (log : List MixEvent) (d d' : DevProxy) : Prop :=
  d'.did = d.did ∧
  (d' = d ∨
    ∃ tbl m, d.mixinTable = some tbl ∧ m ≠ 0 ∧ m < tbl.length ∧
      d'.mixinTable = some (tbl.drop m) ∧ d.did ∈ ret ∧
      ∀ e ∈ tbl.take m, MixEvent.released d.did e.mixinProviderId ∈ log)

/-! ## Device removal (`ScryptedRuntime.removeDevice`) -/

/-- The slice of a `PluginDevice` read by `removeDevice`: its id, owning
plugin, native id and provider link (`getState(_, providerId)`). -/
structure RDev where
  rid : Nat
  pluginId : Nat
  nativeId : Option Nat
  providerId : Option Nat
deriving DecidableEq, Repr

/-- Runtime state touched by `removeDevice`: the in-memory device table,
persisted device and plugin records, running plugin hosts and on-disk
volumes, plus logs of the calls made (`invalidatePluginDevice`,
`stateManager.removeDevice`, `invalidateMixins`, `killPlugin`, plugin
record and volume deletion, and `setNativeId` removal notifications with
their success flag). -/
structure RState where
  table : List RDev
  storeDevices : List Nat
  storePlugins : List Nat
  runningPlugins : List Nat
  volumes : List Nat
  invalidated : List Nat
  stateRemoved : List Nat
  mixinInvalidated : List Nat
  pluginKills : List Nat
  pluginRecordsDeleted : List Nat
  volumesDeleted : List Nat
  notifications : List (Nat × Bool)
deriving DecidableEq, Repr

/-- The bookkeeping view of a runtime state: everything except the
notification outcomes.  Notification failures are caught and only logged,
so removal must produce the same core no matter how notification goes. -/
def RState.core (s : RState) : RState :=
  { s with notifications := [] }

/-- The `for (const provided of providedDevices)` loop of `removeDevice`:
skip the device itself (the `provided === device` guard — table ids are
unique, so object identity is id equality), recursively remove the rest,
propagating fuel exhaustion. -/
def removeProvided (step : RState → RDev → Option RState) (selfId : Nat) :
    RState → List RDev → Option RState
  | st, [] => some st
  | st, p :: ps =>
    if p.rid = selfId then removeProvided step selfId st ps
    else
      match step st p with
      | none => none
      | some st' => removeProvided step selfId st' ps

/-- Bookkeeping of `removeDevice` after the recursive removals: invalidate
the proxy, drop the device from the in-memory table and the datastore,
unregister from the state manager, and invalidate mixin chains referencing
it. -/
def removeBookkeeping (st : RState) (d : RDev) : RState :=
  { st with
    invalidated := st.invalidated ++ [d.rid]
    table := st.table.filter (fun e => e.rid ≠ d.rid)
    storeDevices := st.storeDevices.filter (· ≠ d.rid)
    stateRemoved := st.stateRemoved ++ [d.rid]
    mixinInvalidated := st.mixinInvalidated ++ [d.rid] }

/-- `ScryptedRuntime.removeDevice`, fuelled (`none` = the recursion did not
terminate within `fuel`).  First recursively removes the devices whose
`providerId` is this device (computed from the entry-time table), then does
the bookkeeping; a device with a falsy native id is a plugin root: its
plugin host is killed, the Plugin record deleted and the plugin volume
removed; otherwise the owning plugin is notified via `setNativeId`, whose
failure (`notifyFails`) is caught and only logged. -/
def removeDevice (notifyFails : Nat → Bool) : Nat → RState → RDev → Option RState
  | 0 => fun _ _ => none
  | fuel + 1 => fun st d =>
    match removeProvided (removeDevice notifyFails fuel) d.rid st
        (st.table.filter (fun p => p.providerId = some d.rid)) with
    | none => none
    | some st1 =>
      let st2 := removeBookkeeping st1 d
      if isFalsyNativeId d.nativeId then
        some { st2 with
          runningPlugins := st2.runningPlugins.filter (· ≠ d.pluginId)
          pluginKills := st2.pluginKills ++ [d.pluginId]
          storePlugins := st2.storePlugins.filter (· ≠ d.pluginId)
          pluginRecordsDeleted := st2.pluginRecordsDeleted ++ [d.pluginId]
          volumes := st2.volumes.filter (· ≠ d.pluginId)
          volumesDeleted := st2.volumesDeleted ++ [d.pluginId] }
      else
        some { st2 with notifications := st2.notifications ++ [(d.rid, !notifyFails d.rid)] }

/-- How one `removeDevice` call (or a sequence of them) may change the
state: tables and persisted records only shrink, and the effect logs only
grow. -/
def RemShape (s s' : RState) : Prop :=
  s'.table.Sublist s.table ∧
  (∀ x ∈ s'.storeDevices, x ∈ s.storeDevices) ∧
  (∃ l, s'.invalidated = s.invalidated ++ l) ∧
  (∃ l, s'.stateRemoved = s.stateRemoved ++ l) ∧
  (∃ l, s'.mixinInvalidated = s.mixinInvalidated ++ l) ∧
  (∃ l, s'.pluginKills = s.pluginKills ++ l) ∧
  (∃ l, s'.pluginRecordsDeleted = s.pluginRecordsDeleted ++ l) ∧
  (∃ l, s'.volumesDeleted = s.volumesDeleted ++ l)

/-- The devices that `removeDevice d` is specified to cascade over: `d`
itself, plus (transitively) every table device whose `providerId` points at
a member, except self-loops. -/
inductive ProvClosure (t : List RDev) (root : RDev) : RDev → Prop where
  | refl : ProvClosure t root root
  | step {c q : RDev} : ProvClosure t root c → q ∈ t →
      q.providerId = some c.rid → q.rid ≠ c.rid → ProvClosure t root q

/-- A rank function witnessing that the provider relation has no cycle other
than self-loops: every non-self provider edge strictly decreases the rank of
the id. -/
def ProviderRank (t : List RDev) (rank : Nat → Nat) : Prop :=
  ∀ p ∈ t, ∀ pid, p.providerId = some pid → p.rid ≠ pid → rank p.rid < rank pid

/-- Concrete removal fixture: rank function for the table below
(1 ← 2 ← 3 chain plus unrelated root 4). -/
def w5rank : Nat → Nat := fun n => if n = 1 then 2 else if n = 2 then 1 else 0

/-- Concrete removal fixture: plugin-root device (no native id). -/
def w5d : RDev := ⟨1, 7, none, none⟩

/-- Concrete removal fixture: plugin 7 owns root 1, child 2, grandchild 3;
plugin 8 owns the unrelated root 4. -/
def w5st : RState :=
  ⟨[w5d, ⟨2, 7, some 5, some 1⟩, ⟨3, 7, some 6, some 2⟩, ⟨4, 8, some 9, none⟩],
   [1, 2, 3, 4], [7, 8], [7, 8], [7, 8], [], [], [], [], [], [], []⟩

/-- The state left by removing device 1 from `w5st`. -/
def w5res : RState :=
  ⟨[⟨4, 8, some 9, none⟩], [4], [8], [8], [8], [3, 2, 1], [3, 2, 1], [3, 2, 1],
   [7], [7], [7], [(3, false), (2, false)]⟩

/-- Concrete termination fixture: rank function for the self-loop table. -/
def w10rank : Nat → Nat := fun n => if n = 1 then 1 else 0

/-- Concrete termination fixture: a plugin root whose `providerId` is its
own id (a self-loop provider edge). -/
def w10d : RDev := ⟨1, 7, none, some 1⟩

/-- Concrete termination fixture: the self-loop root and one child. -/
def w10st : RState :=
  ⟨[w10d, ⟨2, 7, some 5, some 1⟩], [1, 2], [7], [7], [7], [], [], [], [], [], [], []⟩

/-! ## Theorems -/

/-- C9: an unhandled promise rejection is downgraded to a warning exactly
when the error value is an instance of one of the two recognized
remote-error classes (`RPCResultError`, `PluginError`); every other error —
including a nullish rejection value — is rethrown, crashing the host
process. -/
theorem unhandledRejection_failFast (e : Option JsErrorClass) :
    (unhandledRejection e = .warned ↔
      e = some .rpcResultError ∨ e = some .pluginError) ∧
    (unhandledRejection e = .rethrown ↔
      e ≠ some .rpcResultError ∧ e ≠ some .pluginError) := by
  rcases e with _ | c
  · simp [unhandledRejection]
  · cases c <;> simp [unhandledRejection]

/-- C4: on an unexpected exit (host not already killed) a restart timer is
scheduled at exactly exit time + 60000 ms while an explicitly killed host
schedules nothing; a firing timer restarts the plugin precisely when the
registered handle is still the exited instance and the Plugin record still
exists, and is silently dropped otherwise; consequently a manual restart
issued before the timer fires (which registers a fresh host identity)
prevents the scheduled restart from ever launching anything. -/
theorem autoRestart_policy (s : SupState) (h pid t : Nat) (tm : TimerM) :
    (h ∉ s.killedHids →
      onExit s h pid t =
        { s with
          killedHids := h :: s.killedHids
          timers := { fireAt := t + 60000, hid := h, pluginId := pid } :: s.timers }) ∧
    (h ∈ s.killedHids → onExit s h pid t = s) ∧
    (s.plugins.lookup tm.pluginId = some tm.hid → tm.pluginId ∈ s.dataPlugins →
      (fireTimer s tm).restarts = (tm.pluginId, s.nextHid) :: s.restarts) ∧
    (¬ (s.plugins.lookup tm.pluginId = some tm.hid ∧ tm.pluginId ∈ s.dataPlugins) →
      (fireTimer s tm).restarts = s.restarts) ∧
    (tm.hid < s.nextHid → tm.pluginId = pid →
      (fireTimer (runPlugin s pid) tm).restarts = (runPlugin s pid).restarts) := by
  refine ⟨fun hk => ?_, fun hk => ?_, fun hl hd => ?_, fun hno => ?_, fun hlt hp => ?_⟩
  · simp [onExit, hk]
  · simp [onExit, hk]
  · simp only [fireTimer]
    rw [if_neg, if_neg]
    · simp [runPlugin, killPlugin, hl]
    · simpa using hd
    · simp [hl]
  · simp only [fireTimer]
    rcases Decidable.em (s.plugins.lookup tm.pluginId = some tm.hid) with hl | hl
    · have hd : tm.pluginId ∉ s.dataPlugins := fun hmem => hno ⟨hl, hmem⟩
      rw [if_neg, if_pos]
      · simpa using hd
      · simp [hl]
    · rw [if_pos]
      simpa using hl
  · subst hp
    have hlook : (runPlugin s tm.pluginId).plugins.lookup tm.pluginId
        = some s.nextHid := by
      simp [runPlugin, killPlugin]
      rcases hcase : s.plugins.lookup tm.pluginId with _ | v <;> simp [List.lookup]
    simp only [fireTimer]
    rw [if_pos]
    rw [hlook]
    have : s.nextHid ≠ tm.hid := by omega
    simp [this]

/-- C4 witness: a host with identity `0` for plugin `3` exits unexpectedly;
a manual restart registers identity `1`, and the scheduled restart then
launches nothing. -/
theorem autoRestart_policy_witness :
    (fireTimer (runPlugin
        { plugins := [(3, 0)], killedHids := [], dataPlugins := [3],
          timers := [], nextHid := 1, restarts := [] } 3)
      { fireAt := 60000, hid := 0, pluginId := 3 }).restarts
      = (runPlugin
        { plugins := [(3, 0)], killedHids := [], dataPlugins := [3],
          timers := [], nextHid := 1, restarts := [] } 3).restarts :=
  (autoRestart_policy
    { plugins := [(3, 0)], killedHids := [], dataPlugins := [3],
      timers := [], nextHid := 1, restarts := [] } 0 3 0
    { fireAt := 60000, hid := 0, pluginId := 3 }).2.2.2.2 (by decide) rfl

/-! ### Startup cycle clearing -/

theorem mixinsOf_cons (k : Nat) (v : List Nat) (es : MixState) (id : Nat) :
    mixinsOf ((k, v) :: es) id = if id = k then v else mixinsOf es id := by
  by_cases h : id = k
  · simp [mixinsOf, List.lookup, h]
  · have hb : (id == k) = false := by simpa using h
    simp [mixinsOf, List.lookup, hb, h]

theorem clearMixins_cons (k : Nat) (v : List Nat) (es : MixState) (i : Nat) :
    clearMixins ((k, v) :: es) i
      = (if k = i then (k, ([] : List Nat)) else (k, v)) :: clearMixins es i := rfl

theorem mixinsOf_clearMixins_subset (st : MixState) (i id : Nat) :
    ∀ x ∈ mixinsOf (clearMixins st i) id, x ∈ mixinsOf st id := by
  induction st with
  | nil => intro x hx; exact hx
  | cons e es ih =>
    intro x hx
    rcases e with ⟨k, v⟩
    rw [clearMixins_cons] at hx
    rw [mixinsOf_cons]
    by_cases hki : k = i
    · rw [if_pos hki, mixinsOf_cons] at hx
      by_cases hik : id = k
      · rw [if_pos hik] at hx
        exact absurd hx (List.not_mem_nil x)
      · rw [if_neg hik] at hx
        rw [if_neg hik]
        exact ih x hx
    · rw [if_neg hki, mixinsOf_cons] at hx
      by_cases hik : id = k
      · rw [if_pos hik] at hx
        rw [if_pos hik]
        exact hx
      · rw [if_neg hik] at hx
        rw [if_neg hik]
        exact ih x hx

theorem mixinsOf_clearMixins_self (st : MixState) (i : Nat) :
    mixinsOf (clearMixins st i) i = [] := by
  induction st with
  | nil => rfl
  | cons e es ih =>
    rcases e with ⟨k, v⟩
    rw [clearMixins_cons]
    by_cases hki : k = i
    · rw [if_pos hki, mixinsOf_cons]
      rw [if_pos hki.symm]
    · rw [if_neg hki, mixinsOf_cons]
      rw [if_neg (fun h => hki h.symm)]
      exact ih

theorem keys_clearMixins (st : MixState) (i : Nat) :
    (clearMixins st i).map Prod.fst = st.map Prod.fst := by
  unfold clearMixins
  rw [List.map_map]
  refine List.map_congr_left ?_
  intro e _
  by_cases h : e.1 = i <;> simp [h]

theorem mixinsOf_cyclePass_subset (ord : List Nat) (st : MixState) (id : Nat) :
    ∀ x ∈ mixinsOf (cyclePass st ord) id, x ∈ mixinsOf st id := by
  induction ord generalizing st with
  | nil => intro x hx; exact hx
  | cons j rest ih =>
    intro x hx
    simp only [cyclePass, List.foldl_cons] at hx
    by_cases hj : hasMixinCycle st j
    · rw [if_pos hj] at hx
      exact mixinsOf_clearMixins_subset st j id x (ih (clearMixins st j) x hx)
    · rw [if_neg hj] at hx
      exact ih st x hx

theorem keys_cyclePass (ord : List Nat) (st : MixState) :
    (cyclePass st ord).map Prod.fst = st.map Prod.fst := by
  induction ord generalizing st with
  | nil => rfl
  | cons j rest ih =>
    simp only [cyclePass, List.foldl_cons]
    by_cases hj : hasMixinCycle st j
    · rw [if_pos hj]
      rw [show (rest.foldl (fun s i => if hasMixinCycle s i then clearMixins s i else s) (clearMixins st j)) = cyclePass (clearMixins st j) rest from rfl]
      rw [ih (clearMixins st j), keys_clearMixins]
    · rw [if_neg hj]
      exact ih st

theorem length_cyclePass (ord : List Nat) (st : MixState) :
    (cyclePass st ord).length = st.length := by
  have h := keys_cyclePass ord st
  have h1 := congrArg List.length h
  simpa using h1

theorem stepSucc_mono {st st' : MixState}
    (hsub : ∀ id, ∀ x ∈ mixinsOf st' id, x ∈ mixinsOf st id)
    {S S' : List Nat} (hS : ∀ x ∈ S', x ∈ S) :
    ∀ x ∈ stepSucc st' S', x ∈ stepSucc st S := by
  intro x hx
  simp only [stepSucc, List.mem_flatten, List.mem_map] at hx ⊢
  rcases hx with ⟨l, ⟨y, hy, rfl⟩, hxl⟩
  exact ⟨mixinsOf st y, ⟨y, hS y hy, rfl⟩, hsub y x hxl⟩

theorem reachClose_mono {st st' : MixState}
    (hsub : ∀ id, ∀ x ∈ mixinsOf st' id, x ∈ mixinsOf st id) :
    ∀ n (S S' : List Nat), (∀ x ∈ S', x ∈ S) →
      ∀ x ∈ reachClose st' n S', x ∈ reachClose st n S := by
  intro n
  induction n with
  | zero => intro S S' hS x hx; exact hS x hx
  | succ n ih =>
    intro S S' hS x hx
    simp only [reachClose] at hx ⊢
    refine ih _ _ ?_ x hx
    intro y hy
    rcases List.mem_append.mp hy with hyS | hyF
    · exact List.mem_append.mpr (.inl (hS y hyS))
    · have hy' := List.of_mem_filter hyF
      have hy2 : y ∈ stepSucc st' S' := List.mem_of_mem_filter hyF
      have hy3 : y ∈ stepSucc st S := stepSucc_mono hsub hS y hy2
      by_cases hyS : y ∈ S
      · exact List.mem_append.mpr (.inl hyS)
      · refine List.mem_append.mpr (.inr (List.mem_filter.mpr ⟨hy3, ?_⟩))
        simpa using hyS

theorem reachClose_nil (st : MixState) (n : Nat) : reachClose st n [] = [] := by
  induction n with
  | zero => rfl
  | succ n ih => simpa [reachClose, stepSucc] using ih

theorem hasMixinCycle_of_empty_mixins {st : MixState} {i : Nat}
    (h : mixinsOf st i = []) : hasMixinCycle st i = false := by
  simp [hasMixinCycle, h, reachClose_nil]

theorem mixins_nonempty_mem_keys {st : MixState} {i : Nat}
    (h : mixinsOf st i ≠ []) : i ∈ st.map Prod.fst := by
  induction st with
  | nil => exact absurd rfl h
  | cons e es ih =>
    rcases e with ⟨k, v⟩
    rw [mixinsOf_cons] at h
    by_cases hik : i = k
    · simp [hik]
    · rw [if_neg hik] at h
      simpa using Or.inr (ih h)

theorem cyclePass_clears_processed (ord : List Nat) (st : MixState) (i : Nat) :
    hasMixinCycle (cyclePass st ord) i = true → i ∉ ord := by
  induction ord generalizing st with
  | nil => intro _ h; exact absurd h (List.not_mem_nil i)
  | cons j rest ih =>
    intro hflag hmem
    have hstep : cyclePass st (j :: rest)
        = cyclePass (if hasMixinCycle st j then clearMixins st j else st) rest := rfl
    rcases List.mem_cons.mp hmem with heq | hrest
    · rw [heq] at hflag
      by_cases hj : hasMixinCycle st j
      · rw [hstep, if_pos hj] at hflag
        have hempty : mixinsOf (cyclePass (clearMixins st j) rest) j = [] := by
          have hsub := mixinsOf_cyclePass_subset rest (clearMixins st j) j
          rw [mixinsOf_clearMixins_self st j] at hsub
          exact List.eq_nil_iff_forall_not_mem.mpr fun x hx => (List.not_mem_nil x) (hsub x hx)
        rw [hasMixinCycle_of_empty_mixins hempty] at hflag
        exact Bool.false_ne_true hflag
      · rw [hstep, if_neg hj] at hflag
        refine hj ?_
        have hsub := mixinsOf_cyclePass_subset rest st
        have hlen : (cyclePass st rest).length = st.length := length_cyclePass rest st
        simp only [hasMixinCycle] at hflag ⊢
        rw [hlen] at hflag
        have := reachClose_mono hsub (st.length + 1)
          (mixinsOf st j) (mixinsOf (cyclePass st rest) j) (hsub j) j
          (by simpa using hflag)
        simpa using this
    · by_cases hj : hasMixinCycle st j
      · rw [hstep, if_pos hj] at hflag
        exact ih (clearMixins st j) hflag hrest
      · rw [hstep, if_neg hj] at hflag
        exact ih st hflag hrest

/-- C6 (amended): after the startup pass over every device id, no device
participates in a mixin cycle any more — the evolving scan clears the
mixins of each device it finds in a cycle against the current state, which
suffices to break every cycle (even though, for a mutual X/Y cycle, only the
first-scanned device's list is cleared). -/
theorem startupCyclePass_breaksAllCycles (st : MixState) (i : Nat) :
    hasMixinCycle (startupCyclePass st) i = false := by
  by_contra hne
  have hflag : hasMixinCycle (startupCyclePass st) i = true := by
    revert hne
    cases hasMixinCycle (startupCyclePass st) i <;> simp
  have hnotin : i ∉ st.map Prod.fst :=
    cyclePass_clears_processed (st.map Prod.fst) st i hflag
  have hnonempty : mixinsOf (startupCyclePass st) i ≠ [] := by
    intro hempty
    rw [hasMixinCycle_of_empty_mixins hempty] at hflag
    exact Bool.false_ne_true hflag
  have hkeys : i ∈ (startupCyclePass st).map Prod.fst :=
    mixins_nonempty_mem_keys hnonempty
  rw [show startupCyclePass st = cyclePass st (st.map Prod.fst) from rfl,
    keys_cyclePass] at hkeys
  exact hnotin hkeys

/-- C6 counterexample: with devices `1` and `2` mixing each other, the
startup pass clears only device `1`'s mixins (the first scanned); device
`2` keeps `[1]`, refuting that both lists are cleared — yet the cycle is
broken. -/
theorem startupCyclePass_mutual_not_both_cleared :
    startupCyclePass [(1, [2]), (2, [1])] = [(1, []), (2, [1])] ∧
    mixinsOf (startupCyclePass [(1, [2]), (2, [1])]) 2 = [1] := by
  exact ⟨by decide, by decide⟩

/-! ### Device upsert -/

theorem upsertCompute_key (pd : UDev) (pid : Nat) (dev : UpsertInput) :
    devKey pid dev.nativeId (upsertCompute pd pid dev).1 = true := by
  simp [upsertCompute, devKey]

theorem upsertCompute_pdId (pd : UDev) (pid : Nat) (dev : UpsertInput) :
    (upsertCompute pd pid dev).1.pdId = pd.pdId := rfl

theorem upsertCompute_mixins (pd : UDev) (pid : Nat) (dev : UpsertInput) :
    (upsertCompute pd pid dev).1.mixins = pd.mixins := rfl

theorem find?_map_replace (q : UDev → Bool) (p : UDev) (hqp : q p = true) :
    ∀ (table : List UDev) (d₀ : UDev), table.find? q = some d₀ → d₀.pdId = p.pdId →
      (table.map (fun d => if d.pdId = p.pdId then p else d)).find? q = some p := by
  intro table
  induction table with
  | nil => intro d₀ h _; simp at h
  | cons d ds ih =>
    intro d₀ hfind hid
    by_cases hqd : q d = true
    · rw [List.find?_cons_of_pos _ hqd] at hfind
      have hd : d = d₀ := Option.some.inj hfind
      subst hd
      simp only [List.map_cons, if_pos hid]
      exact List.find?_cons_of_pos _ hqp
    · rw [List.find?_cons_of_neg _ (by simpa using hqd)] at hfind
      simp only [List.map_cons]
      by_cases hdp : d.pdId = p.pdId
      · rw [if_pos hdp]
        exact List.find?_cons_of_pos _ hqp
      · rw [if_neg hdp, List.find?_cons_of_neg _ (by simpa using hqd)]
        exact ih d₀ hfind hid

theorem find?_map_replace_of_none (q : UDev → Bool) (p : UDev) (hqp : q p = true) :
    ∀ (table : List UDev), table.find? q = none →
      table.any (fun d => d.pdId = p.pdId) = true →
      (table.map (fun d => if d.pdId = p.pdId then p else d)).find? q = some p := by
  intro table
  induction table with
  | nil => intro _ h; simp at h
  | cons d ds ih =>
    intro hfind hany
    have hqd : ¬ q d = true := by
      intro hq
      rw [List.find?_cons_of_pos _ hq] at hfind
      exact Option.noConfusion hfind
    rw [List.find?_cons_of_neg _ (by simpa using hqd)] at hfind
    simp only [List.map_cons]
    by_cases hdp : d.pdId = p.pdId
    · rw [if_pos hdp]
      exact List.find?_cons_of_pos _ hqp
    · rw [if_neg hdp, List.find?_cons_of_neg _ (by simpa using hqd)]
      refine ih hfind ?_
      simp only [List.any_cons, Bool.or_eq_true, decide_eq_true_eq] at hany
      rcases hany with h | h
      · exact absurd h hdp
      · exact h

theorem find?_append_singleton (q : UDev → Bool) (p : UDev) (hqp : q p = true) :
    ∀ (table : List UDev), table.find? q = none → (table ++ [p]).find? q = some p := by
  intro table
  induction table with
  | nil =>
    intro _
    rw [List.nil_append]
    exact List.find?_cons_of_pos _ hqp
  | cons d ds ih =>
    intro hfind
    have hqd : ¬ q d = true := by
      intro hq
      rw [List.find?_cons_of_pos _ hq] at hfind
      exact Option.noConfusion hfind
    rw [List.find?_cons_of_neg _ (by simpa using hqd)] at hfind
    rw [List.cons_append, List.find?_cons_of_neg _ (by simpa using hqd)]
    exact ih hfind

theorem upsertDevice_find_found (table : List UDev) (pid : Nat)
    (dev : UpsertInput) (fid : Nat) (d₀ : UDev)
    (hfind : table.find? (devKey pid dev.nativeId) = some d₀) :
    (upsertDevice table pid dev fid).1.find? (devKey pid dev.nativeId)
      = some (upsertCompute d₀ pid dev).1 := by
  have hmem : d₀ ∈ table := List.mem_of_find?_eq_some hfind
  have hany : table.any
      (fun d => d.pdId = (upsertCompute d₀ pid dev).1.pdId) = true := by
    refine List.any_eq_true.mpr ⟨d₀, hmem, ?_⟩
    simp [upsertCompute_pdId]
  simp only [upsertDevice, hfind, Option.getD_some, hany, if_pos]
  exact find?_map_replace _ _ (upsertCompute_key d₀ pid dev) table d₀ hfind rfl

theorem upsertDevice_find_fresh (table : List UDev) (pid : Nat)
    (dev : UpsertInput) (fid : Nat)
    (hfind : table.find? (devKey pid dev.nativeId) = none) :
    (upsertDevice table pid dev fid).1.find? (devKey pid dev.nativeId)
      = some (upsertCompute
          { pdId := fid, pluginId := pid, nativeId := dev.nativeId
            providedInterfaces := [], interfaces := [], mixins := [] } pid dev).1 := by
  simp only [upsertDevice, hfind, Option.getD_none]
  by_cases hany : table.any
      (fun d => d.pdId = (upsertCompute
        { pdId := fid, pluginId := pid, nativeId := dev.nativeId
          providedInterfaces := [], interfaces := [], mixins := [] } pid dev).1.pdId) = true
  · rw [if_pos hany]
    exact find?_map_replace_of_none _ _ (upsertCompute_key _ pid dev) table hfind hany
  · rw [if_neg hany]
    exact find?_append_singleton _ _ (upsertCompute_key _ pid dev) table hfind

theorem resolvedOf_superset_provided (pd : UDev) (dev : UpsertInput) :
    ∀ a ∈ providedOf dev, a ∈ resolvedOf pd dev := by
  intro a ha
  rw [resolvedOf, mem_sortInterfaces]
  exact List.mem_append.mpr (.inr ha)

theorem resolvedOf_superset_old (pd : UDev) (dev : UpsertInput)
    (hmix : pd.mixins ≠ []) : ∀ a ∈ pd.interfaces, a ∈ resolvedOf pd dev := by
  intro a ha
  rw [resolvedOf, mem_sortInterfaces, if_pos hmix]
  exact List.mem_append.mpr (.inl ha)

theorem resolvedOf_stable (pd : UDev) (pid : Nat) (dev : UpsertInput) :
    resolvedOf (upsertCompute pd pid dev).1 dev = resolvedOf pd dev := by
  have hmx : (upsertCompute pd pid dev).1.mixins = pd.mixins := rfl
  have hif : (upsertCompute pd pid dev).1.interfaces = resolvedOf pd dev := rfl
  by_cases hmix : pd.mixins = []
  · unfold resolvedOf
    rw [hmx, hmix]
    simp
  · unfold resolvedOf
    rw [hmx, hif, if_pos hmix, if_pos hmix]
    refine sortInterfaces_eq_of_mem_iff ?_
    intro a
    constructor
    · intro ha
      rcases List.mem_append.mp ha with h | h
      · rw [resolvedOf, mem_sortInterfaces, if_pos hmix] at h
        exact h
      · exact List.mem_append.mpr (.inr h)
    · intro ha
      refine List.mem_append.mpr (.inl ?_)
      rw [resolvedOf, mem_sortInterfaces, if_pos hmix]
      exact ha

theorem upsertCompute_idem (pd : UDev) (pid : Nat) (dev : UpsertInput) :
    upsertCompute (upsertCompute pd pid dev).1 pid dev
      = ((upsertCompute pd pid dev).1, false) := by
  have hres := resolvedOf_stable pd pid dev
  unfold upsertCompute at hres ⊢
  simp [hres]

theorem upsertDevice_find (table : List UDev) (pid : Nat) (dev : UpsertInput)
    (fid : Nat) :
    (upsertDevice table pid dev fid).1.find? (devKey pid dev.nativeId)
      = some (upsertedDevice table pid dev fid) := by
  rcases hfind : table.find? (devKey pid dev.nativeId) with _ | d₀
  · rw [show upsertedDevice table pid dev fid = (upsertCompute
        { pdId := fid, pluginId := pid, nativeId := dev.nativeId
          providedInterfaces := [], interfaces := [], mixins := [] } pid dev).1 by
      rw [upsertedDevice, hfind, Option.getD_none]]
    exact upsertDevice_find_fresh table pid dev fid hfind
  · rw [show upsertedDevice table pid dev fid = (upsertCompute d₀ pid dev).1 by
      rw [upsertedDevice, hfind, Option.getD_some]]
    exact upsertDevice_find_found table pid dev fid d₀ hfind

theorem upsertDevice_entries (table : List UDev) (pid : Nat) (dev : UpsertInput)
    (fid : Nat) :
    ∀ d ∈ (upsertDevice table pid dev fid).1,
      d.pdId = (upsertedDevice table pid dev fid).pdId →
        d = upsertedDevice table pid dev fid := by
  intro d hd hid
  rcases hfind : table.find? (devKey pid dev.nativeId) with _ | d₀
  all_goals
    simp only [upsertDevice, upsertedDevice, hfind, Option.getD_none,
      Option.getD_some] at hd hid ⊢
  · by_cases hany : table.any (fun e => e.pdId = (upsertCompute
        { pdId := fid, pluginId := pid, nativeId := dev.nativeId
          providedInterfaces := [], interfaces := [], mixins := [] } pid dev).1.pdId) = true
    · rw [if_pos hany] at hd
      rcases List.mem_map.mp hd with ⟨e, _, heq⟩
      by_cases hep : e.pdId = (upsertCompute
          { pdId := fid, pluginId := pid, nativeId := dev.nativeId
            providedInterfaces := [], interfaces := [], mixins := [] } pid dev).1.pdId
      · rw [if_pos hep] at heq
        exact heq.symm
      · rw [if_neg hep] at heq
        subst heq
        exact absurd hid hep
    · rw [if_neg hany] at hd
      rcases List.mem_append.mp hd with hmem | hmem
      · exfalso
        refine hany (List.any_eq_true.mpr ⟨d, hmem, ?_⟩)
        simpa using hid
      · simpa using hmem
  · by_cases hany : table.any
        (fun e => e.pdId = (upsertCompute d₀ pid dev).1.pdId) = true
    · rw [if_pos hany] at hd
      rcases List.mem_map.mp hd with ⟨e, _, heq⟩
      by_cases hep : e.pdId = (upsertCompute d₀ pid dev).1.pdId
      · rw [if_pos hep] at heq
        exact heq.symm
      · rw [if_neg hep] at heq
        subst heq
        exact absurd hid hep
    · rw [if_neg hany] at hd
      rcases List.mem_append.mp hd with hmem | hmem
      · exfalso
        refine hany (List.any_eq_true.mpr ⟨d, hmem, ?_⟩)
        simpa using hid
      · simpa using hmem

theorem upsertDevice_stable (table : List UDev) (pid : Nat) (dev : UpsertInput)
    (fid : Nat) (p : UDev)
    (hfind : table.find? (devKey pid dev.nativeId) = some p)
    (hcomp : upsertCompute p pid dev = (p, false))
    (hentries : ∀ d ∈ table, d.pdId = p.pdId → d = p) :
    upsertDevice table pid dev fid = (table, false) := by
  have hany : table.any (fun d => d.pdId = p.pdId) = true := by
    refine List.any_eq_true.mpr ⟨p, List.mem_of_find?_eq_some hfind, ?_⟩
    simp
  have hrep : table.map (fun d => if d.pdId = p.pdId then p else d) = table := by
    refine List.map_congr_left ?_ |>.trans table.map_id
    intro d hd
    by_cases hdp : d.pdId = p.pdId
    · rw [if_pos hdp, hentries d hd hdp]
      rfl
    · rw [if_neg hdp]
      rfl
  simp only [upsertDevice, hfind, Option.getD_some, hcomp, hany, if_pos, hrep]

/-- C3: a second `upsertDevice` call with the identical plugin id and device
descriptor is a no-op: it reports `interfacesChanged = false` and leaves the
whole persisted device table — in particular the stored interface set —
exactly as the first call left it. -/
theorem upsertDevice_idempotent (table : List UDev) (pid : Nat)
    (dev : UpsertInput) (fid1 fid2 : Nat) :
    upsertDevice (upsertDevice table pid dev fid1).1 pid dev fid2
      = ((upsertDevice table pid dev fid1).1, false) := by
  have hfind := upsertDevice_find table pid dev fid1
  have hcomp : upsertCompute (upsertedDevice table pid dev fid1) pid dev
      = (upsertedDevice table pid dev fid1, false) := by
    rw [upsertedDevice]
    exact upsertCompute_idem _ pid dev
  exact upsertDevice_stable _ pid dev fid2 _ hfind hcomp
    (upsertDevice_entries table pid dev fid1)

theorem upsertSeq_invariant (pid : Nat) (nid : Option Nat) :
    ∀ (ins : List (UpsertInput × Nat)) (table : List UDev) (d₀ : UDev),
      table.find? (devKey pid nid) = some d₀ →
      d₀.mixins ≠ [] →
      (∀ i ∈ ins, i.1.nativeId = nid) →
      ∃ d', (upsertSeq table pid ins).find? (devKey pid nid) = some d' ∧
        d'.mixins = d₀.mixins ∧
        (∀ a ∈ d₀.interfaces, a ∈ d'.interfaces) ∧
        (∀ i ∈ ins, ∀ a ∈ providedOf i.1, a ∈ d'.interfaces) ∧
        ((ins = [] ∧ d' = d₀) ∨
          (d'.interfaces.Sorted (· ≤ ·) ∧ d'.interfaces.Nodup)) := by
  intro ins
  induction ins with
  | nil =>
    intro table d₀ hfind hmix _
    exact ⟨d₀, hfind, rfl, fun a ha => ha, by simp, .inl ⟨rfl, rfl⟩⟩
  | cons i rest ih =>
    intro table d₀ hfind hmix hins
    have hnat : i.1.nativeId = nid := hins i (List.mem_cons_self i rest)
    have hseq : upsertSeq table pid (i :: rest)
        = upsertSeq (upsertDevice table pid i.1 i.2).1 pid rest := rfl
    have hfind1 : (upsertDevice table pid i.1 i.2).1.find? (devKey pid nid)
        = some (upsertCompute d₀ pid i.1).1 := by
      rw [← hnat]
      exact upsertDevice_find_found table pid i.1 i.2 d₀ (by rw [hnat]; exact hfind)
    have hmix1 : (upsertCompute d₀ pid i.1).1.mixins ≠ [] := by
      rw [upsertCompute_mixins]
      exact hmix
    rcases ih (upsertDevice table pid i.1 i.2).1 (upsertCompute d₀ pid i.1).1
        hfind1 hmix1 (fun j hj => hins j (List.mem_cons_of_mem i hj)) with
      ⟨d', hfind', hmix', hmono, hsup, hsorted⟩
    have hd1if : (upsertCompute d₀ pid i.1).1.interfaces = resolvedOf d₀ i.1 := rfl
    refine ⟨d', by rw [hseq]; exact hfind', by rw [hmix', upsertCompute_mixins], ?_, ?_, ?_⟩
    · intro a ha
      refine hmono a ?_
      rw [hd1if]
      exact resolvedOf_superset_old d₀ i.1 hmix a ha
    · intro j hj a ha
      rcases List.mem_cons.mp hj with heq | hj'
      · subst heq
        refine hmono a ?_
        rw [hd1if]
        exact resolvedOf_superset_provided d₀ j.1 a ha
      · exact hsup j hj' a ha
    · rcases hsorted with ⟨_, hd⟩ | hs
      · subst hd
        refine .inr ?_
        rw [hd1if]
        exact ⟨sorted_sortInterfaces _, nodup_sortInterfaces _⟩
      · exact .inr hs

/-- C2 (amended): for a device whose stored `mixins` list is nonempty, the
resolved interface list after any sequence of upserts is a superset of every
provided interface list supplied along the way, and the stored list is
deterministically sorted and duplicate-free.  (For a device with an empty
`mixins` list the resolution is not seeded from the previous value, so only
the last call's provided interfaces survive — see the counterexample.) -/
theorem upsertSeq_superset (pid : Nat) (nid : Option Nat)
    (ins : List (UpsertInput × Nat)) (table : List UDev) (d₀ : UDev)
    (hfind : table.find? (devKey pid nid) = some d₀)
    (hmix : d₀.mixins ≠ [])
    (hins : ∀ i ∈ ins, i.1.nativeId = nid)
    (hne : ins ≠ []) :
    ∃ d', (upsertSeq table pid ins).find? (devKey pid nid) = some d' ∧
      d'.mixins = d₀.mixins ∧
      (∀ i ∈ ins, ∀ a ∈ providedOf i.1, a ∈ d'.interfaces) ∧
      d'.interfaces.Sorted (· ≤ ·) ∧ d'.interfaces.Nodup := by
  rcases upsertSeq_invariant pid nid ins table d₀ hfind hmix hins with
    ⟨d', hfind', hmix', _, hsup, hsorted⟩
  rcases hsorted with ⟨hnil, _⟩ | ⟨hs, hn⟩
  · exact absurd hnil hne
  · exact ⟨d', hfind', hmix', hsup, hs, hn⟩

/-- C2 counterexample: a device with no mixins does not retain earlier
provided interfaces: after upserting interfaces `[10]` and then `[11]` for
the same native id, the stored interface list is `[11]`, which does not
include the previously provided `10`. -/
theorem upsertDevice_union_not_monotone :
    10 ∈ providedOf { nativeId := some 7, interfaces := [10] } ∧
    ((upsertDevice (upsertDevice [] 5 { nativeId := some 7, interfaces := [10] } 1).1
          5 { nativeId := some 7, interfaces := [11] } 2).1.find?
        (devKey 5 (some 7))).map UDev.interfaces = some [11] ∧
    (10 : Nat) ∉ [(11 : Nat)] := by
  exact ⟨by decide, by decide, by decide⟩

/-- C2 witness: applying the amended theorem to a concrete device with a
nonempty mixin list and two concrete upserts. -/
theorem upsertSeq_superset_witness :
    ∃ d', (upsertSeq
        [{ pdId := 1, pluginId := 5, nativeId := some 7,
           providedInterfaces := [], interfaces := [], mixins := [99] }] 5
        [({ nativeId := some 7, interfaces := [10] }, 2),
         ({ nativeId := some 7, interfaces := [11] }, 3)]).find? (devKey 5 (some 7))
        = some d' ∧
      d'.mixins = [99] ∧
      (∀ i ∈ [(({ nativeId := some 7, interfaces := [10] } : UpsertInput), 2),
              (({ nativeId := some 7, interfaces := [11] } : UpsertInput), 3)],
        ∀ a ∈ providedOf i.1, a ∈ d'.interfaces) ∧
      d'.interfaces.Sorted (· ≤ ·) ∧ d'.interfaces.Nodup :=
  upsertSeq_superset 5 (some 7) _ _
    { pdId := 1, pluginId := 5, nativeId := some 7,
      providedInterfaces := [], interfaces := [], mixins := [99] }
    (by decide) (by decide) (by decide) (by decide)

/-- C7: `upsertDevice` stamps the synthetic `ScryptedPlugin` marker onto the
provided interfaces of a device without a native id and strips it from a
device with a (nonempty) defined native id, and the startup repair pass
restores the marker on any root device missing it. -/
theorem rootMarker_invariant (pd : UDev) (pid : Nat) (dev : UpsertInput) :
    (dev.nativeId = none →
      scryptedPluginIface ∈ (upsertCompute pd pid dev).1.providedInterfaces) ∧
    (∀ s, dev.nativeId = some s → s ≠ emptyStrTok →
      scryptedPluginIface ∉ (upsertCompute pd pid dev).1.providedInterfaces) ∧
    (pd.nativeId = none →
      scryptedPluginIface ∈ (startupRepairDevice pd).providedInterfaces) := by
  have hprov : (upsertCompute pd pid dev).1.providedInterfaces = providedOf dev := rfl
  refine ⟨fun hnone => ?_, fun s hsome hs => ?_, fun hnone => ?_⟩
  · rw [hprov, providedOf, hnone]
    simp only [isFalsyNativeId, if_pos]
    rw [mem_sortInterfaces]
    simp
  · rw [hprov, providedOf, hsome]
    have hfal : isFalsyNativeId (some s) = false := by
      simp [isFalsyNativeId, hs]
    rw [hfal]
    simp only [Bool.false_eq_true, if_neg, not_false_eq_true]
    rw [mem_sortInterfaces]
    intro hmem
    have := List.of_mem_filter hmem
    simp at this
  · unfold startupRepairDevice
    by_cases hmem : scryptedPluginIface ∈ pd.providedInterfaces
    · have hcond : (isFalsyNativeId pd.nativeId
          && scryptedPluginIface ∉ pd.providedInterfaces) = false := by
        simp [hmem]
      rw [hcond]
      simpa using hmem
    · have hcond : (isFalsyNativeId pd.nativeId
          && scryptedPluginIface ∉ pd.providedInterfaces) = true := by
        simp [hnone, isFalsyNativeId, hmem]
      rw [hcond]
      simp only [if_pos]
      rw [mem_sortInterfaces]
      simp

/-- C7 witness: the three marker facts at concrete devices. -/
theorem rootMarker_invariant_witness :
    scryptedPluginIface ∈ (upsertCompute
      { pdId := 1, pluginId := 5, nativeId := none,
        providedInterfaces := [], interfaces := [], mixins := [] } 5
      { nativeId := none, interfaces := [4] }).1.providedInterfaces ∧
    scryptedPluginIface ∉ (upsertCompute
      { pdId := 1, pluginId := 5, nativeId := some 9,
        providedInterfaces := [], interfaces := [], mixins := [] } 5
      { nativeId := some 9, interfaces := [4, 0] }).1.providedInterfaces ∧
    scryptedPluginIface ∈ (startupRepairDevice
      { pdId := 1, pluginId := 5, nativeId := none,
        providedInterfaces := [2], interfaces := [2], mixins := [] }).providedInterfaces :=
  ⟨(rootMarker_invariant _ 5 { nativeId := none, interfaces := [4] }).1 rfl,
   (rootMarker_invariant _ 5 { nativeId := some 9, interfaces := [4, 0] }).2.1
     9 rfl (by decide),
   (rootMarker_invariant
     { pdId := 1, pluginId := 5, nativeId := none,
       providedInterfaces := [2], interfaces := [2], mixins := [] } 5
     { nativeId := none, interfaces := [4] }).2.2 rfl⟩

/-! ### Mixin invalidation: chain evolution algebra -/

theorem chainEvolved_refl (ret : List Nat) (log : List MixEvent) (d : DevProxy) :
    ChainEvolved ret log d d := ⟨rfl, .inl rfl⟩

theorem chainEvolved_mono {ret ret' : List Nat} {log log' : List MixEvent}
    (hr : ∀ x ∈ ret, x ∈ ret') (hl : ∀ e ∈ log, e ∈ log') {d d' : DevProxy} :
    ChainEvolved ret log d d' → ChainEvolved ret' log' d d' := by
  rintro ⟨hdid, heq | ⟨tbl, m, hmt, hm0, hmlen, hmt', hret, hrel⟩⟩
  · exact ⟨hdid, .inl heq⟩
  · exact ⟨hdid, .inr ⟨tbl, m, hmt, hm0, hmlen, hmt', hr _ hret,
      fun e he => hl _ (hrel e he)⟩⟩

theorem chainEvolved_trans {ret ret' : List Nat} {log log' : List MixEvent}
    (hr : ∀ x ∈ ret, x ∈ ret') (hl : ∀ e ∈ log, e ∈ log') {d d₁ d₂ : DevProxy} :
    ChainEvolved ret log d d₁ → ChainEvolved ret' log' d₁ d₂ →
    ChainEvolved ret' log' d d₂ := by
  rintro ⟨hdid1, h1⟩ ⟨hdid2, h2⟩
  rcases h1 with heq1 | ⟨tbl, m, hmt, hm0, hmlen, hmt', hret, hrel⟩
  · subst heq1
    exact ⟨hdid2, h2⟩
  · rcases h2 with heq2 | ⟨tbl₁, m₂, hmt₁, hm02, hmlen2, hmt₂', hret2, hrel2⟩
    · subst heq2
      exact ⟨hdid1, .inr ⟨tbl, m, hmt, hm0, hmlen, hmt', hr _ hret,
        fun e he => hl _ (hrel e he)⟩⟩
    · have htbl₁ : tbl₁ = tbl.drop m := by
        rw [hmt'] at hmt₁
        exact (Option.some.inj hmt₁).symm
      subst htbl₁
      have hlen' : m + m₂ < tbl.length := by
        have hdl := List.length_drop m tbl
        omega
      have hdrop : d₂.mixinTable = some (tbl.drop (m + m₂)) := by
        rw [hmt₂', List.drop_drop]
      have hev : ∀ e ∈ tbl.take (m + m₂),
          MixEvent.released d.did e.mixinProviderId ∈ log' := by
        intro e he
        rw [List.take_add] at he
        rcases List.mem_append.mp he with he1 | he2
        · exact hl _ (hrel e he1)
        · have h2e := hrel2 e he2
          rw [hdid1] at h2e
          exact h2e
      exact ⟨hdid2.trans hdid1,
        .inr ⟨tbl, m + m₂, hmt, by omega, hlen', hdrop, hr _ hret, hev⟩⟩

theorem forall₂_chain_refl (ret : List Nat) (log : List MixEvent) :
    ∀ l : List DevProxy, List.Forall₂ (ChainEvolved ret log) l l := by
  intro l
  induction l with
  | nil => exact List.Forall₂.nil
  | cons d ds ih => exact List.Forall₂.cons (chainEvolved_refl ret log d) ih

theorem forall₂_comp {α β γ : Type} {R : α → β → Prop} {S : β → γ → Prop}
    {T : α → γ → Prop} (h : ∀ a b c, R a b → S b c → T a c) :
    ∀ {l₁ : List α} {l₂ : List β} {l₃ : List γ},
      List.Forall₂ R l₁ l₂ → List.Forall₂ S l₂ l₃ → List.Forall₂ T l₁ l₃ := by
  intro l₁ l₂ l₃ h12 h23
  induction h12 generalizing l₃ with
  | nil =>
    cases h23
    exact List.Forall₂.nil
  | cons hab h' ih =>
    cases h23 with
    | cons hbc h'' => exact List.Forall₂.cons (h _ _ _ hab hbc) (ih h'')

theorem forall₂_mem_right {α β : Type} {R : α → β → Prop} :
    ∀ {l₁ : List α} {l₂ : List β}, List.Forall₂ R l₁ l₂ →
      ∀ b ∈ l₂, ∃ a ∈ l₁, R a b := by
  intro l₁ l₂ h
  induction h with
  | nil => intro b hb; exact absurd hb (List.not_mem_nil b)
  | cons hab h' ih =>
    intro b hb
    rcases List.mem_cons.mp hb with heq | hb'
    · subst heq
      exact ⟨_, List.mem_cons_self _ _, hab⟩
    · rcases ih b hb' with ⟨a, ha, hr⟩
      exact ⟨a, List.mem_cons_of_mem _ ha, hr⟩

theorem forall₂_mem_left {α β : Type} {R : α → β → Prop} :
    ∀ {l₁ : List α} {l₂ : List β}, List.Forall₂ R l₁ l₂ →
      ∀ a ∈ l₁, ∃ b ∈ l₂, R a b := by
  intro l₁ l₂ h
  induction h with
  | nil => intro a ha; exact absurd ha (List.not_mem_nil a)
  | cons hab h' ih =>
    intro a ha
    rcases List.mem_cons.mp ha with heq | ha'
    · subst heq
      exact ⟨_, List.mem_cons_self _ _, hab⟩
    · rcases ih a ha' with ⟨b, hb, hr⟩
      exact ⟨b, List.mem_cons_of_mem _ hb, hr⟩

theorem forall₂_chain_map_did {ret : List Nat} {log : List MixEvent} :
    ∀ {l₁ l₂ : List DevProxy}, List.Forall₂ (ChainEvolved ret log) l₁ l₂ →
      l₂.map DevProxy.did = l₁.map DevProxy.did := by
  intro l₁ l₂ h
  induction h with
  | nil => rfl
  | cons hab h' ih =>
    simp only [List.map_cons, ih, List.cons.injEq]
    exact ⟨hab.1, trivial⟩

/-- Case analysis on one device-step of pass one. -/
theorem procDev_elim (id : Nat) (d : DevProxy) (ret rem : List Nat)
    (log : List MixEvent) :
    (procDev id d ret rem log = (d, ret, rem, log) ∧
      ∀ tbl, d.mixinTable = some tbl → ∀ e ∈ tbl, e.mixinProviderId ≠ some id) ∨
    (∃ tbl i, d.mixinTable = some tbl ∧ ∃ hlen : i < tbl.length,
      (tbl.get ⟨i, hlen⟩).mixinProviderId = some id ∧
      ∃ retn remn,
        ((d.did ∈ ret ∧ retn = ret ∧ remn = rem) ∨
         (d.did ∉ ret ∧ retn = ret ++ [d.did] ∧ remn = d.did :: rem)) ∧
        ((i = tbl.length - 1 ∧
           procDev id d ret rem log = (d, retn, remn, log ++ [.terminalWarn d.did])) ∨
         (i ≠ tbl.length - 1 ∧
           procDev id d ret rem log
             = ({ d with mixinTable := some (tbl.drop (i + 1)) }, retn, remn,
                log ++ (tbl.take (i + 1)).map
                  (fun e => .released d.did e.mixinProviderId))))) := by
  rcases hmt : d.mixinTable with _ | tbl
  · refine .inl ⟨?_, ?_⟩
    · simp [procDev, hmt]
    · intro tbl htbl
      simp at htbl
  · rcases hfi : tbl.findIdx? (fun mt => mt.mixinProviderId = some id) with _ | i
    · refine .inl ⟨?_, ?_⟩
      · simp [procDev, hmt, hfi]
      · intro tbl' htbl' e he
        have htt : tbl = tbl' := Option.some.inj htbl'
        subst htt
        have := List.findIdx?_eq_none_iff.mp hfi e he
        simpa using this
    · have hidx := List.findIdx?_eq_some_iff_getElem.mp hfi
      rcases hidx with ⟨hlen, hpred, _⟩
      refine .inr ⟨tbl, i, rfl, hlen, ?_, ?_⟩
      · have hg : tbl.get ⟨i, hlen⟩ = tbl[i] := rfl
        rw [hg]
        simpa using hpred
      · by_cases hmem : d.did ∈ ret
        · refine ⟨ret, rem, .inl ⟨hmem, rfl, rfl⟩, ?_⟩
          by_cases hterm : i = tbl.length - 1
          · exact .inl ⟨hterm, by simp [procDev, hmt, hfi, hmem, hterm]⟩
          · exact .inr ⟨hterm, by simp [procDev, hmt, hfi, hmem, hterm]⟩
        · refine ⟨ret ++ [d.did], d.did :: rem, .inr ⟨hmem, rfl, rfl⟩, ?_⟩
          by_cases hterm : i = tbl.length - 1
          · exact .inl ⟨hterm, by simp [procDev, hmt, hfi, hmem, hterm]⟩
          · exact .inr ⟨hterm, by simp [procDev, hmt, hfi, hmem, hterm]⟩

/-- Everything pass one's device loop guarantees for one popped id:  the
result set grows by a duplicate-free batch of device ids not yet collected,
exactly that batch is pushed onto the worklist, the log grows by
non-rebuild events, every chain evolves per `ChainEvolved`, every device
still carrying a chain entry provided by `id` has been collected, and every
newly collected id is justified by a matching entry in its pre-step chain. -/
theorem procDevs_spec (id : Nat) :
    ∀ (devs : List DevProxy) (ret rem : List Nat) (log : List MixEvent),
      ∃ retNew logNew,
        (procDevs id devs ret rem log).2.1 = ret ++ retNew ∧
        (procDevs id devs ret rem log).2.2.1 = retNew.reverse ++ rem ∧
        (procDevs id devs ret rem log).2.2.2 = log ++ logNew ∧
        retNew.Nodup ∧
        (∀ x ∈ retNew, x ∉ ret ∧ x ∈ devs.map DevProxy.did) ∧
        List.Forall₂ (ChainEvolved (ret ++ retNew) (log ++ logNew)) devs
          (procDevs id devs ret rem log).1 ∧
        (∀ ev ∈ logNew, ev.isRebuilt = false) ∧
        (∀ d' ∈ (procDevs id devs ret rem log).1, ∀ tbl',
          d'.mixinTable = some tbl' → ∀ e ∈ tbl',
            e.mixinProviderId = some id → d'.did ∈ ret ++ retNew) ∧
        (∀ x ∈ retNew, ∃ d ∈ devs, d.did = x ∧ ∃ tbl, d.mixinTable = some tbl ∧
          ∃ e ∈ tbl, e.mixinProviderId = some id) := by
  intro devs
  induction devs with
  | nil =>
    intro ret rem log
    refine ⟨[], [], by simp [procDevs], by simp [procDevs], by simp [procDevs],
      List.nodup_nil, by simp, ?_, by simp, by simp [procDevs], by simp⟩
    simp [procDevs]
  | cons d ds ih =>
    intro ret rem log
    have hunfold : procDevs id (d :: ds) ret rem log
        = ((procDev id d ret rem log).1 ::
            (procDevs id ds (procDev id d ret rem log).2.1
              (procDev id d ret rem log).2.2.1
              (procDev id d ret rem log).2.2.2).1,
           (procDevs id ds (procDev id d ret rem log).2.1
              (procDev id d ret rem log).2.2.1
              (procDev id d ret rem log).2.2.2).2) := rfl
    rcases procDev_elim id d ret rem log with ⟨hstep, hnomatch⟩ |
      ⟨tbl, i, hmt, hlen, hget, retn, remn, hcase, hterm⟩
    · -- the device has no entry provided by `id`; nothing changes for it
      rcases ih ret rem log with ⟨retNew, logNew, h1, h2, h3, h4, h5, h6, h7, h8, h9⟩
      rw [hunfold, hstep]
      refine ⟨retNew, logNew, h1, h2, h3, h4, ?_, ?_, h7, ?_, ?_⟩
      · intro x hx
        rcases h5 x hx with ⟨hxr, hxm⟩
        exact ⟨hxr, by simpa using Or.inr (by simpa using hxm)⟩
      · exact List.Forall₂.cons (chainEvolved_refl _ _ d) h6
      · intro d' hd' tbl' htbl' e he hpe
        rcases List.mem_cons.mp hd' with heq | hd''
        · subst heq
          exact absurd hpe (hnomatch tbl' htbl' e he)
        · exact h8 d' hd'' tbl' htbl' e he hpe
      · intro x hx
        rcases h9 x hx with ⟨d', hd', hrest⟩
        exact ⟨d', List.mem_cons_of_mem d hd', hrest⟩
    · -- the device's chain matched at index `i`
      have hmem : tbl.get ⟨i, hlen⟩ ∈ tbl := tbl.get_mem i hlen
      rcases hterm with ⟨hterm, hstep⟩ | ⟨hterm, hstep⟩
      · -- terminal entry: warn, collect, no splice
        rcases ih retn remn (log ++ [.terminalWarn d.did]) with
          ⟨retNew, logNew, h1, h2, h3, h4, h5, h6, h7, h8, h9⟩
        rw [hunfold, hstep]
        rcases hcase with ⟨hin, hrn, hmn⟩ | ⟨hnotin, hrn, hmn⟩
        · subst hrn hmn
          refine ⟨retNew, .terminalWarn d.did :: logNew, h1, h2, ?_, h4, ?_, ?_, ?_, ?_, ?_⟩
          · rw [h3, List.append_assoc]
            rfl
          · intro x hx
            rcases h5 x hx with ⟨hxr, hxm⟩
            exact ⟨hxr, by simpa using Or.inr (by simpa using hxm)⟩
          · refine List.Forall₂.cons ?_ ?_
            · exact chainEvolved_refl _ _ d
            · have h6' := h6
              rw [List.append_assoc] at h6'
              exact h6'
          · intro ev hev
            rcases List.mem_cons.mp hev with heq | hev'
            · subst heq
              rfl
            · exact h7 ev hev'
          · intro d' hd' tbl' htbl' e he hpe
            rcases List.mem_cons.mp hd' with heq | hd''
            · subst heq
              exact List.mem_append.mpr (.inl hin)
            · exact h8 d' hd'' tbl' htbl' e he hpe
          · intro x hx
            rcases h9 x hx with ⟨d', hd', hrest⟩
            exact ⟨d', List.mem_cons_of_mem d hd', hrest⟩
        · subst hrn hmn
          refine ⟨d.did :: retNew, .terminalWarn d.did :: logNew, ?_, ?_, ?_, ?_, ?_, ?_, ?_, ?_, ?_⟩
          · rw [h1, List.append_assoc]
            rfl
          · rw [h2]
            simp
          · rw [h3, List.append_assoc]
            rfl
          · refine List.nodup_cons.mpr ⟨?_, h4⟩
            intro hmem'
            have := (h5 d.did hmem').1
            simp at this
          · intro x hx
            rcases List.mem_cons.mp hx with heq | hx'
            · subst heq
              exact ⟨hnotin, by simp⟩
            · rcases h5 x hx' with ⟨hxr, hxm⟩
              refine ⟨fun hc => hxr (List.mem_append.mpr (.inl hc)), ?_⟩
              simpa using Or.inr (by simpa using hxm)
          · refine List.Forall₂.cons ?_ ?_
            · exact chainEvolved_refl _ _ d
            · have h6' := h6
              rw [List.append_assoc, List.append_assoc] at h6'
              simpa using h6'
          · intro ev hev
            rcases List.mem_cons.mp hev with heq | hev'
            · subst heq
              rfl
            · exact h7 ev hev'
          · intro d' hd' tbl' htbl' e he hpe
            rcases List.mem_cons.mp hd' with heq | hd''
            · subst heq
              refine List.mem_append.mpr (.inr ?_)
              simp
            · have h8' := h8 d' hd'' tbl' htbl' e he hpe
              rw [List.append_assoc] at h8'
              simpa using h8'
          · intro x hx
            rcases List.mem_cons.mp hx with heq | hx'
            · subst heq
              exact ⟨d, List.mem_cons_self d ds, rfl, tbl, hmt,
                tbl.get ⟨i, hlen⟩, hmem, hget⟩
            · rcases h9 x hx' with ⟨d', hd', hrest⟩
              exact ⟨d', List.mem_cons_of_mem d hd', hrest⟩
      · -- non-terminal match: splice out head..match and release it
        have hi1 : i + 1 < tbl.length := by omega
        have hi10 : i + 1 ≠ 0 := by omega
        rcases ih retn remn
            (log ++ (tbl.take (i + 1)).map (fun e => .released d.did e.mixinProviderId)) with
          ⟨retNew, logNew, h1, h2, h3, h4, h5, h6, h7, h8, h9⟩
        rw [hunfold, hstep]
        rcases hcase with ⟨hin, hrn, hmn⟩ | ⟨hnotin, hrn, hmn⟩
        · subst hrn hmn
          refine ⟨retNew,
            (tbl.take (i + 1)).map (fun e => .released d.did e.mixinProviderId) ++ logNew,
            h1, h2, ?_, h4, ?_, ?_, ?_, ?_, ?_⟩
          · rw [h3, List.append_assoc]
          · intro x hx
            rcases h5 x hx with ⟨hxr, hxm⟩
            exact ⟨hxr, by simpa using Or.inr (by simpa using hxm)⟩
          · refine List.Forall₂.cons ?_ ?_
            · refine ⟨rfl, .inr ⟨tbl, i + 1, hmt, hi10, hi1, rfl,
                List.mem_append.mpr (.inl hin), ?_⟩⟩
              intro e he
              refine List.mem_append.mpr (.inr (List.mem_append.mpr (.inl ?_)))
              exact List.mem_map.mpr ⟨e, he, rfl⟩
            · have h6' := h6
              rw [List.append_assoc] at h6'
              exact h6'
          · intro ev hev
            rcases List.mem_append.mp hev with hev' | hev'
            · rcases List.mem_map.mp hev' with ⟨e, _, heq⟩
              subst heq
              rfl
            · exact h7 ev hev'
          · intro d' hd' tbl' htbl' e he hpe
            rcases List.mem_cons.mp hd' with heq | hd''
            · subst heq
              exact List.mem_append.mpr (.inl hin)
            · exact h8 d' hd'' tbl' htbl' e he hpe
          · intro x hx
            rcases h9 x hx with ⟨d', hd', hrest⟩
            exact ⟨d', List.mem_cons_of_mem d hd', hrest⟩
        · subst hrn hmn
          refine ⟨d.did :: retNew,
            (tbl.take (i + 1)).map (fun e => .released d.did e.mixinProviderId) ++ logNew,
            ?_, ?_, ?_, ?_, ?_, ?_, ?_, ?_, ?_⟩
          · rw [h1, List.append_assoc]
            rfl
          · rw [h2]
            simp
          · rw [h3, List.append_assoc]
          · refine List.nodup_cons.mpr ⟨?_, h4⟩
            intro hmem'
            have := (h5 d.did hmem').1
            simp at this
          · intro x hx
            rcases List.mem_cons.mp hx with heq | hx'
            · subst heq
              exact ⟨hnotin, by simp⟩
            · rcases h5 x hx' with ⟨hxr, hxm⟩
              refine ⟨fun hc => hxr (List.mem_append.mpr (.inl hc)), ?_⟩
              simpa using Or.inr (by simpa using hxm)
          · refine List.Forall₂.cons ?_ ?_
            · refine ⟨rfl, .inr ⟨tbl, i + 1, hmt, hi10, hi1, rfl, ?_, ?_⟩⟩
              · refine List.mem_append.mpr (.inr ?_)
                simp
              · intro e he
                refine List.mem_append.mpr (.inr (List.mem_append.mpr (.inl ?_)))
                exact List.mem_map.mpr ⟨e, he, rfl⟩
            · have h6' := h6
              rw [List.append_assoc, List.append_assoc] at h6'
              simpa using h6'
          · intro ev hev
            rcases List.mem_append.mp hev with hev' | hev'
            · rcases List.mem_map.mp hev' with ⟨e, _, heq⟩
              subst heq
              rfl
            · exact h7 ev hev'
          · intro d' hd' tbl' htbl' e he hpe
            rcases List.mem_cons.mp hd' with heq | hd''
            · subst heq
              refine List.mem_append.mpr (.inr ?_)
              simp
            · have h8' := h8 d' hd'' tbl' htbl' e he hpe
              rw [List.append_assoc] at h8'
              simpa using h8'
          · intro x hx
            rcases List.mem_cons.mp hx with heq | hx'
            · subst heq
              exact ⟨d, List.mem_cons_self d ds, rfl, tbl, hmt,
                tbl.get ⟨i, hlen⟩, hmem, hget⟩
            · rcases h9 x hx' with ⟨d', hd', hrest⟩
              exact ⟨d', List.mem_cons_of_mem d hd', hrest⟩

/-- The worklist loop of pass one preserves its invariants and drains into a
state where every id of `S` or of the result set has been fully handled. -/
theorem mixLoop_inv (S : List Nat) (devs₀ : List DevProxy) :
    ∀ (fuel : Nat) (devs : List DevProxy) (ret rem : List Nat)
      (log : List MixEvent) (devs' : List DevProxy) (ret' : List Nat)
      (log' : List MixEvent),
      List.Forall₂ (ChainEvolved ret log) devs₀ devs →
      (∀ x ∈ rem, x ∈ S ∨ x ∈ ret) →
      (∀ p, (p ∈ S ∨ p ∈ ret) → p ∈ rem ∨
        (∀ d ∈ devs, ∀ tbl, d.mixinTable = some tbl →
          ∀ e ∈ tbl, e.mixinProviderId = some p → d.did ∈ ret)) →
      (∀ ev ∈ log, ev.isRebuilt = false) →
      mixLoop fuel devs ret rem log = some (devs', ret', log') →
      List.Forall₂ (ChainEvolved ret' log') devs₀ devs' ∧
      (∀ p, (p ∈ S ∨ p ∈ ret') →
        ∀ d ∈ devs', ∀ tbl, d.mixinTable = some tbl →
          ∀ e ∈ tbl, e.mixinProviderId = some p → d.did ∈ ret') ∧
      (∀ ev ∈ log', ev.isRebuilt = false) ∧
      (∀ T, ClosedSet S devs₀ T → (∀ x ∈ ret, x ∈ T) → ∀ x ∈ ret', x ∈ T) := by
  intro fuel
  induction fuel with
  | zero =>
    intro devs ret rem log devs' ret' log' inv1 inv2 inv3 inv4 hrun
    rcases rem with _ | ⟨p, rest⟩
    · have heq : (devs, ret, log) = (devs', ret', log') := by
        simpa [mixLoop] using hrun
      obtain ⟨hd, hr, hl⟩ : devs = devs' ∧ ret = ret' ∧ log = log' := by
        injection heq with h1 h2
        injection h2 with h2 h3
        exact ⟨h1, h2, h3⟩
      subst hd hr hl
      refine ⟨inv1, ?_, inv4, fun T _ hsub => hsub⟩
      intro p hp d hd tbl htbl e he hpe
      rcases inv3 p hp with hmem | hh
      · exact absurd hmem (List.not_mem_nil p)
      · exact hh d hd tbl htbl e he hpe
    · simp [mixLoop] at hrun
  | succ fuel ih =>
    intro devs ret rem log devs' ret' log' inv1 inv2 inv3 inv4 hrun
    rcases rem with _ | ⟨p, rest⟩
    · have heq : (devs, ret, log) = (devs', ret', log') := by
        simpa [mixLoop] using hrun
      obtain ⟨hd, hr, hl⟩ : devs = devs' ∧ ret = ret' ∧ log = log' := by
        injection heq with h1 h2
        injection h2 with h2 h3
        exact ⟨h1, h2, h3⟩
      subst hd hr hl
      refine ⟨inv1, ?_, inv4, fun T _ hsub => hsub⟩
      intro p hp d hd tbl htbl e he hpe
      rcases inv3 p hp with hmem | hh
      · exact absurd hmem (List.not_mem_nil p)
      · exact hh d hd tbl htbl e he hpe
    · have hstep : mixLoop (fuel + 1) devs ret (p :: rest) log
          = mixLoop fuel (procDevs p devs ret rest log).1
              (procDevs p devs ret rest log).2.1
              (procDevs p devs ret rest log).2.2.1
              (procDevs p devs ret rest log).2.2.2 := rfl
      rw [hstep] at hrun
      rcases procDevs_spec p devs ret rest log with
        ⟨retNew, logNew, e1, e2, e3, _, _, e6, e7, e8, e9⟩
      rw [e1, e2, e3] at hrun
      have hretsub : ∀ x ∈ ret, x ∈ ret ++ retNew :=
        fun x hx => List.mem_append.mpr (.inl hx)
      have hlogsub : ∀ ev ∈ log, ev ∈ log ++ logNew :=
        fun ev hev => List.mem_append.mpr (.inl hev)
      have e6' : List.Forall₂ (ChainEvolved (ret ++ retNew) (log ++ logNew))
          devs (procDevs p devs ret rest log).1 := e6
      have hcompose : ∀ (a b c : DevProxy), ChainEvolved ret log a b →
          ChainEvolved (ret ++ retNew) (log ++ logNew) b c →
          ChainEvolved (ret ++ retNew) (log ++ logNew) a c :=
        fun _ _ _ hab hbc => chainEvolved_trans hretsub hlogsub hab hbc
      have inv1' : List.Forall₂ (ChainEvolved (ret ++ retNew) (log ++ logNew))
          devs₀ (procDevs p devs ret rest log).1 :=
        forall₂_comp hcompose inv1 e6'
      have inv2' : ∀ x ∈ retNew.reverse ++ rest, x ∈ S ∨ x ∈ ret ++ retNew := by
        intro x hx
        rcases List.mem_append.mp hx with hx' | hx'
        · exact .inr (List.mem_append.mpr (.inr (List.mem_reverse.mp hx')))
        · rcases inv2 x (List.mem_cons_of_mem p hx') with h | h
          · exact .inl h
          · exact .inr (List.mem_append.mpr (.inl h))
      have inv3' : ∀ q, (q ∈ S ∨ q ∈ ret ++ retNew) →
          q ∈ retNew.reverse ++ rest ∨
          (∀ d ∈ (procDevs p devs ret rest log).1, ∀ tbl,
            d.mixinTable = some tbl → ∀ e ∈ tbl,
              e.mixinProviderId = some q → d.did ∈ ret ++ retNew) := by
        intro q hq
        have hqcase : q ∈ retNew ∨ (q ∈ S ∨ q ∈ ret) := by
          rcases hq with h | h
          · exact .inr (.inl h)
          · rcases List.mem_append.mp h with h' | h'
            · exact .inr (.inr h')
            · exact .inl h'
        rcases hqcase with hqnew | hqold
        · exact .inl (List.mem_append.mpr (.inl (List.mem_reverse.mpr hqnew)))
        · rcases inv3 q hqold with hqrem | hqhandled
          · rcases List.mem_cons.mp hqrem with heq | hqrest
            · subst heq
              exact .inr e8
            · exact .inl (List.mem_append.mpr (.inr hqrest))
          · refine .inr ?_
            intro d' hd' tbl' htbl' e he hpe
            rcases forall₂_mem_right e6' d' hd' with ⟨d, hd, hrel⟩
            rcases hrel with ⟨hdid, heq | ⟨tbl₀, m, hmt₀, _, _, hmt', _, _⟩⟩
            · have hpost := hqhandled d hd tbl' (heq ▸ htbl') e he hpe
              rw [hdid]
              exact hretsub _ hpost
            · have htt : tbl' = tbl₀.drop m := by
                rw [hmt'] at htbl'
                exact (Option.some.inj htbl').symm
              subst htt
              have hemem : e ∈ tbl₀ := (List.drop_sublist m tbl₀).subset he
              rw [hdid]
              exact hretsub _ (hqhandled d hd tbl₀ hmt₀ e hemem hpe)
      have inv4' : ∀ ev ∈ log ++ logNew, ev.isRebuilt = false := by
        intro ev hev
        rcases List.mem_append.mp hev with h | h
        · exact inv4 ev h
        · exact e7 ev h
      rcases ih _ _ _ _ _ _ _ inv1' inv2' inv3' inv4' hrun with
        ⟨c1, c2, c3, c4⟩
      refine ⟨c1, c2, c3, ?_⟩
      intro T hT hsub x hx
      refine c4 T hT ?_ x hx
      intro y hy
      rcases List.mem_append.mp hy with hy' | hy'
      · exact hsub y hy'
      · rcases e9 y hy' with ⟨d, hd, hdid, tbl, hmt, e, he, hpe⟩
        have hpT : p ∈ S ∨ p ∈ T := by
          rcases inv2 p (List.mem_cons_self p rest) with h | h
          · exact .inl h
          · exact .inr (hsub p h)
        rcases forall₂_mem_right inv1 d hd with ⟨d₀, hd₀, hrel⟩
        rcases hrel with ⟨hdid₀, heq | ⟨tbl₀, m, hmt₀, _, _, hmt', _, _⟩⟩
        · subst heq
          have hdT := hT d hd₀ tbl hmt e he p hpe hpT
          rw [← hdid]
          exact hdT
        · have htt : tbl = tbl₀.drop m := by
            rw [hmt'] at hmt
            exact (Option.some.inj hmt).symm
          subst htt
          have hemem : e ∈ tbl₀ := (List.drop_sublist m tbl₀).subset he
          have := hT d₀ hd₀ tbl₀ hmt₀ e hemem p hpe hpT
          rw [← hdid, hdid₀]
          exact this

/-- Collecting a fresh duplicate-free batch of keys shrinks the count of
uncollected keys by at least the batch size. -/
theorem count_filter_append (keys : List Nat) (hk : keys.Nodup) :
    ∀ (retNew ret : List Nat), retNew.Nodup →
      (∀ x ∈ retNew, x ∈ keys ∧ x ∉ ret) →
      (keys.filter (fun x => x ∉ ret ++ retNew)).length + retNew.length
        ≤ (keys.filter (fun x => x ∉ ret)).length := by
  intro retNew
  induction retNew with
  | nil =>
    intro ret _ _
    simp
  | cons x rn ih =>
    intro ret hnd hmem
    have hxk : x ∈ keys := (hmem x (List.mem_cons_self x rn)).1
    have hxr : x ∉ ret := (hmem x (List.mem_cons_self x rn)).2
    have hnd' : rn.Nodup := (List.nodup_cons.mp hnd).2
    have hxrn : x ∉ rn := (List.nodup_cons.mp hnd).1
    have hmem' : ∀ y ∈ rn, y ∈ keys ∧ y ∉ ret ++ [x] := by
      intro y hy
      refine ⟨(hmem y (List.mem_cons_of_mem x hy)).1, ?_⟩
      intro hc
      rcases List.mem_append.mp hc with h | h
      · exact (hmem y (List.mem_cons_of_mem x hy)).2 h
      · simp only [List.mem_singleton] at h
        subst h
        exact hxrn hy
    have hIH := ih (ret ++ [x]) hnd' hmem'
    have heq : (ret ++ [x]) ++ rn = ret ++ (x :: rn) := by simp
    rw [heq] at hIH
    have hfil : keys.filter (fun y => y ∉ ret ++ [x])
        = (keys.filter (fun y => y ∉ ret)).filter (fun y => y ≠ x) := by
      rw [List.filter_filter]
      refine (List.filter_congr ?_).symm
      intro y _
      by_cases hyr : y ∈ ret
      · simp [hyr]
      · by_cases hyx : y = x
        · simp [hyx, hyr]
        · simp [hyr, hyx]
    have hnodf : (keys.filter (fun y => y ∉ ret)).Nodup := hk.filter _
    have hxf : x ∈ keys.filter (fun y => y ∉ ret) :=
      List.mem_filter.mpr ⟨hxk, by simpa using hxr⟩
    have herase : (keys.filter (fun y => y ∉ ret)).erase x
        = ((keys.filter (fun y => y ∉ ret)).filter (fun y => y ≠ x)) := by
      rw [hnodf.erase_eq_filter x]
      refine List.filter_congr ?_
      intro y _
      by_cases h : y = x <;> simp [h, bne]
    have hlen : ((keys.filter (fun y => y ∉ ret)).filter (fun y => y ≠ x)).length
        = (keys.filter (fun y => y ∉ ret)).length - 1 := by
      rw [← herase]
      exact List.length_erase_of_mem hxf
    have hpos : 0 < (keys.filter (fun y => y ∉ ret)).length :=
      List.length_pos_of_mem hxf
    rw [hfil] at hIH
    simp only [List.length_cons]
    omega

/-- Pass one terminates whenever the fuel exceeds the worklist length plus
twice the number of uncollected device ids. -/
theorem mixLoop_sufficient :
    ∀ (fuel : Nat) (devs : List DevProxy) (ret rem : List Nat)
      (log : List MixEvent),
      rem.length + 2 * (((devs.map DevProxy.did).dedup).filter
        (fun x => x ∉ ret)).length < fuel →
      ∃ res, mixLoop fuel devs ret rem log = some res := by
  intro fuel
  induction fuel with
  | zero =>
    intro devs ret rem log hlt
    omega
  | succ fuel ih =>
    intro devs ret rem log hlt
    rcases rem with _ | ⟨p, rest⟩
    · exact ⟨(devs, ret, log), rfl⟩
    · have hstep : mixLoop (fuel + 1) devs ret (p :: rest) log
          = mixLoop fuel (procDevs p devs ret rest log).1
              (procDevs p devs ret rest log).2.1
              (procDevs p devs ret rest log).2.2.1
              (procDevs p devs ret rest log).2.2.2 := rfl
      rcases procDevs_spec p devs ret rest log with
        ⟨retNew, logNew, e1, e2, _, e4, e5, e6, _, _, _⟩
      have hkeys : ((procDevs p devs ret rest log).1.map DevProxy.did).dedup
          = (devs.map DevProxy.did).dedup := by
        rw [forall₂_chain_map_did e6]
      have hcount := count_filter_append (devs.map DevProxy.did).dedup
        (List.nodup_dedup _) retNew ret e4
        (fun x hx => ⟨List.mem_dedup.mpr (e5 x hx).2, (e5 x hx).1⟩)
      have hmeas : (procDevs p devs ret rest log).2.2.1.length
          + 2 * ((((procDevs p devs ret rest log).1.map DevProxy.did).dedup).filter
            (fun x => x ∉ (procDevs p devs ret rest log).2.1)).length < fuel := by
        rw [e1, e2, hkeys]
        have hremlen : (retNew.reverse ++ rest).length
            = retNew.length + rest.length := by
          rw [List.length_append, List.length_reverse]
        rw [hremlen]
        simp only [List.length_cons] at hlt
        omega
      rcases ih (procDevs p devs ret rest log).1
          (procDevs p devs ret rest log).2.1
          (procDevs p devs ret rest log).2.2.1
          (procDevs p devs ret rest log).2.2.2 hmeas with ⟨res, hres⟩
      exact ⟨res, by rw [hstep]; exact hres⟩

/-- `invalidateMixins` always completes within its fuel. -/
theorem invalidateMixins_total (ids : List Nat) (devs : List DevProxy) :
    ∃ res, invalidateMixins ids devs = some res := by
  have hcnt : (((devs.map DevProxy.did).dedup).filter
      (fun x => x ∉ ([] : List Nat))).length ≤ devs.length := by
    calc (((devs.map DevProxy.did).dedup).filter (fun x => x ∉ ([] : List Nat))).length
        ≤ ((devs.map DevProxy.did).dedup).length :=
          (List.filter_sublist _).length_le
      _ ≤ (devs.map DevProxy.did).length := (List.dedup_sublist _).length_le
      _ = devs.length := List.length_map _ _
  have hfuel : ids.reverse.length + 2 * (((devs.map DevProxy.did).dedup).filter
      (fun x => x ∉ ([] : List Nat))).length < mixFuel ids devs := by
    rw [List.length_reverse]
    unfold mixFuel
    omega
  rcases mixLoop_sufficient (mixFuel ids devs) devs [] ids.reverse [] hfuel with
    ⟨⟨devs', ret, log⟩, hres⟩
  refine ⟨(devs', ret, log ++ ret.map .rebuilt), ?_⟩
  unfold invalidateMixins
  rw [hres]

/-- C1: the propagation pass of `invalidateMixins` computes the least set
`R` closed under "a device's id is in `R` whenever its live chain has an
entry whose provider is in `S` or in `R`"; each affected device's chain
loses exactly a strict nonempty prefix (head through match), with every
spliced entry released, the terminal entry always surviving, and untouched
devices keeping their chains verbatim (`ChainEvolved`). -/
theorem invalidateMixins_leastFixpoint (S : List Nat)
    (devs devs' : List DevProxy) (ret : List Nat) (log : List MixEvent)
    (hrun : invalidateMixins S devs = some (devs', ret, log)) :
    ClosedSet S devs ret ∧
    (∀ T, ClosedSet S devs T → ∀ x ∈ ret, x ∈ T) ∧
    List.Forall₂ (ChainEvolved ret log) devs devs' := by
  unfold invalidateMixins at hrun
  rcases hml : mixLoop (mixFuel S devs) devs [] S.reverse [] with _ | ⟨⟨devs₁, ret₁, log₁⟩⟩
  · rw [hml] at hrun
    simp at hrun
  · rw [hml] at hrun
    have hrun' : some (devs₁, ret₁, log₁ ++ ret₁.map MixEvent.rebuilt)
        = some (devs', ret, log) := hrun
    simp only [Option.some.injEq, Prod.mk.injEq] at hrun'
    obtain ⟨hd, hr, hl⟩ := hrun'
    subst hd hr hl
    have hinit1 : List.Forall₂ (ChainEvolved [] []) devs devs :=
      forall₂_chain_refl [] [] devs
    have hinit2 : ∀ x ∈ S.reverse, x ∈ S ∨ x ∈ ([] : List Nat) :=
      fun x hx => .inl (List.mem_reverse.mp hx)
    have hinit3 : ∀ p, (p ∈ S ∨ p ∈ ([] : List Nat)) → p ∈ S.reverse ∨
        (∀ d ∈ devs, ∀ tbl, d.mixinTable = some tbl →
          ∀ e ∈ tbl, e.mixinProviderId = some p → d.did ∈ ([] : List Nat)) := by
      intro p hp
      rcases hp with h | h
      · exact .inl (List.mem_reverse.mpr h)
      · exact absurd h (List.not_mem_nil p)
    have hinit4 : ∀ ev ∈ ([] : List MixEvent), ev.isRebuilt = false := by simp
    rcases mixLoop_inv S devs (mixFuel S devs) devs [] S.reverse []
        devs₁ ret₁ log₁ hinit1 hinit2 hinit3 hinit4 hml with ⟨c1, c2, c3, c4⟩
    refine ⟨?_, fun T hT => c4 T hT (by simp), ?_⟩
    · intro d hd tbl htbl e he pp hpe hp
      rcases forall₂_mem_left c1 d hd with ⟨d₁, hd₁, hrel⟩
      rcases hrel with ⟨hdid, heq | ⟨tbl₀, m, hmt₀, _, _, _, hret, _⟩⟩
      · have hpost := c2 pp hp d₁ hd₁ tbl (by rw [heq]; exact htbl) e he hpe
        rw [← hdid]
        exact hpost
      · exact hret
    · refine c1.imp ?_
      intro a b hab
      exact chainEvolved_mono (fun x hx => hx)
        (fun ev hev => List.mem_append.mpr (.inl hev)) hab

/-- C1 witness: a chain `1 ← [10, 20, terminal]`, a device `2` mixing `1`,
and an untouched sibling `3`; invalidating `20` collects exactly `{1, 2}`. -/
theorem invalidateMixins_leastFixpoint_witness :
    ClosedSet [20]
      [{ did := 1, mixinTable := some [{ mixinProviderId := some 10 },
          { mixinProviderId := some 20 }, { mixinProviderId := none }] },
       { did := 2, mixinTable := some [{ mixinProviderId := some 1 },
          { mixinProviderId := none }] },
       { did := 3, mixinTable := some [{ mixinProviderId := none }] }] [1, 2] ∧
    (∀ T, ClosedSet [20]
      [{ did := 1, mixinTable := some [{ mixinProviderId := some 10 },
          { mixinProviderId := some 20 }, { mixinProviderId := none }] },
       { did := 2, mixinTable := some [{ mixinProviderId := some 1 },
          { mixinProviderId := none }] },
       { did := 3, mixinTable := some [{ mixinProviderId := none }] }] T →
      ∀ x ∈ [1, 2], x ∈ T) ∧
    List.Forall₂ (ChainEvolved [1, 2]
      [.released 1 (some 10), .released 1 (some 20), .released 2 (some 1),
       .rebuilt 1, .rebuilt 2])
      [{ did := 1, mixinTable := some [{ mixinProviderId := some 10 },
          { mixinProviderId := some 20 }, { mixinProviderId := none }] },
       { did := 2, mixinTable := some [{ mixinProviderId := some 1 },
          { mixinProviderId := none }] },
       { did := 3, mixinTable := some [{ mixinProviderId := none }] }]
      [{ did := 1, mixinTable := some [{ mixinProviderId := none }] },
       { did := 2, mixinTable := some [{ mixinProviderId := none }] },
       { did := 3, mixinTable := some [{ mixinProviderId := none }] }] :=
  invalidateMixins_leastFixpoint [20] _ _ [1, 2]
    [.released 1 (some 10), .released 1 (some 20), .released 2 (some 1),
     .rebuilt 1, .rebuilt 2] (by decide)

/-- C8: within one `invalidateMixins` call no rebuild is initiated before
the propagation worklist is fully drained — the event log is the
propagation events (none of which is a rebuild) followed by rebuilds of
exactly the collected ids, in collection order. -/
theorem invalidateMixins_twoPhases (S : List Nat)
    (devs devs' : List DevProxy) (ret : List Nat) (log : List MixEvent)
    (hrun : invalidateMixins S devs = some (devs', ret, log)) :
    (∃ log1, log = log1 ++ ret.map MixEvent.rebuilt ∧
      ∀ ev ∈ log1, ev.isRebuilt = false) ∧
    log.filter (fun ev => ev.isRebuilt) = ret.map MixEvent.rebuilt := by
  unfold invalidateMixins at hrun
  rcases hml : mixLoop (mixFuel S devs) devs [] S.reverse [] with _ | ⟨⟨devs₁, ret₁, log₁⟩⟩
  · rw [hml] at hrun
    simp at hrun
  · rw [hml] at hrun
    have hrun' : some (devs₁, ret₁, log₁ ++ ret₁.map MixEvent.rebuilt)
        = some (devs', ret, log) := hrun
    simp only [Option.some.injEq, Prod.mk.injEq] at hrun'
    obtain ⟨hd, hr, hl⟩ := hrun'
    subst hd hr hl
    have hinit1 : List.Forall₂ (ChainEvolved [] []) devs devs :=
      forall₂_chain_refl [] [] devs
    have hinit2 : ∀ x ∈ S.reverse, x ∈ S ∨ x ∈ ([] : List Nat) :=
      fun x hx => .inl (List.mem_reverse.mp hx)
    have hinit3 : ∀ p, (p ∈ S ∨ p ∈ ([] : List Nat)) → p ∈ S.reverse ∨
        (∀ d ∈ devs, ∀ tbl, d.mixinTable = some tbl →
          ∀ e ∈ tbl, e.mixinProviderId = some p → d.did ∈ ([] : List Nat)) := by
      intro p hp
      rcases hp with h | h
      · exact .inl (List.mem_reverse.mpr h)
      · exact absurd h (List.not_mem_nil p)
    have hinit4 : ∀ ev ∈ ([] : List MixEvent), ev.isRebuilt = false := by simp
    rcases mixLoop_inv S devs (mixFuel S devs) devs [] S.reverse []
        devs₁ ret₁ log₁ hinit1 hinit2 hinit3 hinit4 hml with ⟨_, _, c3, _⟩
    refine ⟨⟨log₁, rfl, c3⟩, ?_⟩
    rw [List.filter_append]
    have hnil : log₁.filter (fun ev => ev.isRebuilt) = [] := by
      refine List.filter_eq_nil_iff.mpr ?_
      intro ev hev
      rw [c3 ev hev]
      simp
    have hself : (ret₁.map MixEvent.rebuilt).filter (fun ev => ev.isRebuilt)
        = ret₁.map MixEvent.rebuilt := by
      refine List.filter_eq_self.mpr ?_
      intro ev hev
      rcases List.mem_map.mp hev with ⟨x, _, heq⟩
      subst heq
      rfl
    rw [hnil, hself, List.nil_append]

/-- C8 witness: the two-phase structure of the concrete run used for C1. -/
theorem invalidateMixins_twoPhases_witness :
    (∃ log1, ([MixEvent.released 1 (some 10), .released 1 (some 20),
        .released 2 (some 1), .rebuilt 1, .rebuilt 2] : List MixEvent)
        = log1 ++ [1, 2].map MixEvent.rebuilt ∧
      ∀ ev ∈ log1, ev.isRebuilt = false) ∧
    ([MixEvent.released 1 (some 10), .released 1 (some 20),
        .released 2 (some 1), .rebuilt 1, .rebuilt 2] : List MixEvent).filter
      (fun ev => ev.isRebuilt) = [1, 2].map MixEvent.rebuilt :=
  invalidateMixins_twoPhases [20]
    [{ did := 1, mixinTable := some [{ mixinProviderId := some 10 },
        { mixinProviderId := some 20 }, { mixinProviderId := none }] },
     { did := 2, mixinTable := some [{ mixinProviderId := some 1 },
        { mixinProviderId := none }] },
     { did := 3, mixinTable := some [{ mixinProviderId := none }] }]
    [{ did := 1, mixinTable := some [{ mixinProviderId := none }] },
     { did := 2, mixinTable := some [{ mixinProviderId := none }] },
     { did := 3, mixinTable := some [{ mixinProviderId := none }] }]
    [1, 2]
    [.released 1 (some 10), .released 1 (some 20), .released 2 (some 1),
     .rebuilt 1, .rebuilt 2] (by decide)

/-! ### Device removal -/

theorem remShape_refl (s : RState) : RemShape s s :=
  ⟨List.Sublist.refl _, fun _ hx => hx, ⟨[], by simp⟩, ⟨[], by simp⟩,
   ⟨[], by simp⟩, ⟨[], by simp⟩, ⟨[], by simp⟩, ⟨[], by simp⟩⟩

theorem remShape_trans {a b c : RState} (h1 : RemShape a b) (h2 : RemShape b c) :
    RemShape a c := by
  obtain ⟨t1, s1, ⟨i1, hi1⟩, ⟨r1, hr1⟩, ⟨m1, hm1⟩, ⟨k1, hk1⟩, ⟨p1, hp1⟩, ⟨v1, hv1⟩⟩ := h1
  obtain ⟨t2, s2, ⟨i2, hi2⟩, ⟨r2, hr2⟩, ⟨m2, hm2⟩, ⟨k2, hk2⟩, ⟨p2, hp2⟩, ⟨v2, hv2⟩⟩ := h2
  refine ⟨t2.trans t1, fun x hx => s1 x (s2 x hx), ⟨i1 ++ i2, ?_⟩, ⟨r1 ++ r2, ?_⟩,
    ⟨m1 ++ m2, ?_⟩, ⟨k1 ++ k2, ?_⟩, ⟨p1 ++ p2, ?_⟩, ⟨v1 ++ v2, ?_⟩⟩
  · rw [hi2, hi1, List.append_assoc]
  · rw [hr2, hr1, List.append_assoc]
  · rw [hm2, hm1, List.append_assoc]
  · rw [hk2, hk1, List.append_assoc]
  · rw [hp2, hp1, List.append_assoc]
  · rw [hv2, hv1, List.append_assoc]

/-- Generic preservation along the provided-devices loop. -/
theorem removeProvided_pres {P : RState → RState → Prop}
    (step : RState → RDev → Option RState) (selfId : Nat)
    (hrefl : ∀ s, P s s)
    (htrans : ∀ a b c, P a b → P b c → P a c)
    (hstep : ∀ s d s', step s d = some s' → P s s') :
    ∀ (l : List RDev) (s s' : RState),
      removeProvided step selfId s l = some s' → P s s' := by
  intro l
  induction l with
  | nil =>
    intro s s' h
    have hss : s = s' := Option.some.inj h
    subst hss
    exact hrefl s
  | cons p ps ih =>
    intro s s' h
    by_cases hp : p.rid = selfId
    · rw [removeProvided, if_pos hp] at h
      exact ih s s' h
    · rw [removeProvided, if_neg hp] at h
      rcases hstep₀ : step s p with _ | s₁
      · rw [hstep₀] at h
        simp at h
      · rw [hstep₀] at h
        exact htrans _ _ _ (hstep s p s₁ hstep₀) (ih s₁ s' h)

/-- The bookkeeping step satisfies `RemShape`. -/
theorem remShape_bookkeeping (st1 : RState) (d : RDev) :
    RemShape st1 (removeBookkeeping st1 d) := by
  refine ⟨List.filter_sublist _, ?_, ⟨[d.rid], rfl⟩, ⟨[d.rid], rfl⟩,
    ⟨[d.rid], rfl⟩, ⟨[], by simp [removeBookkeeping]⟩,
    ⟨[], by simp [removeBookkeeping]⟩, ⟨[], by simp [removeBookkeeping]⟩⟩
  intro x hx
  exact List.mem_of_mem_filter hx

/-- The plugin-kill branch satisfies `RemShape`. -/
theorem remShape_rootBranch (s : RState) (d : RDev) :
    RemShape s { s with
      runningPlugins := s.runningPlugins.filter (· ≠ d.pluginId)
      pluginKills := s.pluginKills ++ [d.pluginId]
      storePlugins := s.storePlugins.filter (· ≠ d.pluginId)
      pluginRecordsDeleted := s.pluginRecordsDeleted ++ [d.pluginId]
      volumes := s.volumes.filter (· ≠ d.pluginId)
      volumesDeleted := s.volumesDeleted ++ [d.pluginId] } :=
  ⟨List.Sublist.refl _, fun _ hx => hx, ⟨[], by simp⟩, ⟨[], by simp⟩,
   ⟨[], by simp⟩, ⟨[d.pluginId], rfl⟩, ⟨[d.pluginId], rfl⟩, ⟨[d.pluginId], rfl⟩⟩

/-- Appending a notification satisfies `RemShape`. -/
theorem remShape_notify (s : RState) (x : Nat × Bool) :
    RemShape s { s with notifications := s.notifications ++ [x] } :=
  ⟨List.Sublist.refl _, fun _ hx => hx, ⟨[], by simp⟩, ⟨[], by simp⟩,
   ⟨[], by simp⟩, ⟨[], by simp⟩, ⟨[], by simp⟩, ⟨[], by simp⟩⟩

theorem removeDevice_shape (nf : Nat → Bool) :
    ∀ (fuel : Nat) (st : RState) (d : RDev) (st' : RState),
      removeDevice nf fuel st d = some st' → RemShape st st' := by
  intro fuel
  induction fuel with
  | zero =>
    intro st d st' h
    simp [removeDevice] at h
  | succ fuel ih =>
    intro st d st' h
    simp only [removeDevice] at h
    split at h
    · exact absurd h (by simp)
    · rename_i st1 hrp
      have hshape1 : RemShape st st1 :=
        removeProvided_pres _ _ remShape_refl (fun a b c => remShape_trans)
          (fun s d s' hs => ih s d s' hs) _ st st1 hrp
      split at h
      · have hst := Option.some.inj h
        subst hst
        exact remShape_trans hshape1 (remShape_trans
          (remShape_bookkeeping st1 d) (remShape_rootBranch (removeBookkeeping st1 d) d))
      · have hst := Option.some.inj h
        subst hst
        exact remShape_trans hshape1 (remShape_trans
          (remShape_bookkeeping st1 d)
          (remShape_notify (removeBookkeeping st1 d) (d.rid, !nf d.rid)))


/-- Members of the provided-closure are the root or table entries. -/
theorem provClosure_mem {t : List RDev} {root x : RDev}
    (h : ProvClosure t root x) : x = root ∨ x ∈ t := by
  cases h with
  | refl => exact .inl rfl
  | step hm hq he hn => exact .inr hq

/-- A non-root closure member has a last provider edge into the closure. -/
theorem provClosure_last {t : List RDev} {root x : RDev}
    (h : ProvClosure t root x) :
    x = root ∨ ∃ m, ProvClosure t root m ∧ x ∈ t ∧
      x.providerId = some m.rid ∧ x.rid ≠ m.rid := by
  cases h with
  | refl => exact .inl rfl
  | @step c q hm hq he hn => exact .inr ⟨c, hm, hq, he, hn⟩

/-- The provided-closure is monotone in the table. -/
theorem provClosure_mono {s t : List RDev} {root x : RDev}
    (hsub : ∀ y ∈ s, y ∈ t) (h : ProvClosure s root x) : ProvClosure t root x := by
  induction h with
  | refl => exact .refl
  | @step c q hm hq he hn ih => exact .step ih (hsub q hq) he hn

/-- Closures compose: a closure member of a closure member is a closure
member. -/
theorem provClosure_compose {t : List RDev} {a b x : RDev}
    (h1 : ProvClosure t a b) (h2 : ProvClosure t b x) : ProvClosure t a x := by
  induction h2 with
  | refl => exact h1
  | @step c q hm hq he hn ih => exact .step ih hq he hn

/-- Under a provider rank function, every closure member other than the root
has strictly smaller rank than the root. -/
theorem provClosure_rank {t : List RDev} {root x : RDev} {rank : Nat → Nat}
    (hr : ProviderRank t rank) (h : ProvClosure t root x) :
    x = root ∨ rank x.rid < rank root.rid := by
  induction h with
  | refl => exact .inl rfl
  | @step c q hm hq he hn ih =>
    have hq' : rank q.rid < rank c.rid := hr q hq c.rid he hn
    rcases ih with rfl | hlt
    · exact .inr hq'
    · exact .inr (by omega)

/-- Every closure member is the root or reached through a first step to a
direct child of the root. -/
theorem provClosure_first_step {t : List RDev} {root x : RDev}
    (h : ProvClosure t root x) :
    x = root ∨ ∃ c, c ∈ t ∧ c.providerId = some root.rid ∧ c.rid ≠ root.rid ∧
      ProvClosure t c x := by
  induction h with
  | refl => exact .inl rfl
  | @step c q hm hq he hn ih =>
    rcases ih with rfl | ⟨c₀, hc₀t, hc₀p, hc₀ne, hc₀m⟩
    · exact .inr ⟨q, hq, he, hn, .refl⟩
    · exact .inr ⟨c₀, hc₀t, hc₀p, hc₀ne, .step hc₀m hq he hn⟩

/-- With duplicate-free ids, a table entry is determined by its id (object
identity in the device table is id equality). -/
theorem rid_inj {t : List RDev} (h : (t.map RDev.rid).Nodup) {a b : RDev}
    (ha : a ∈ t) (hb : b ∈ t) (hab : a.rid = b.rid) : a = b :=
  List.inj_on_of_nodup_map h ha hb hab

/-- Chain transfer: if every device already gone from the sub-table has its
whole closure gone, then a closure chain of the big table whose endpoint
survives in the sub-table can be replayed inside the sub-table. -/
theorem provClosure_transfer {t sub : List RDev} {c x : RDev}
    (hnodup : (t.map RDev.rid).Nodup) (hsub : sub.Sublist t)
    (hgone : ∀ y ∈ t, y.rid ∉ sub.map RDev.rid →
      ∀ z ∈ t, ProvClosure t y z → z.rid ∉ sub.map RDev.rid)
    (hchain : ProvClosure t c x) (hc : c ∈ t) (hx : x ∈ sub) :
    ProvClosure sub c x := by
  induction hchain with
  | refl => exact .refl
  | @step m q hm hqmem hedge hne ihm =>
    by_cases hmin : m.rid ∈ sub.map RDev.rid
    · obtain ⟨m', hm'sub, hm'rid⟩ := List.mem_map.mp hmin
      have hmbig : m ∈ t := (provClosure_mem hm).elim (fun h => h ▸ hc) id
      have hm'eq : m' = m := rid_inj hnodup (hsub.subset hm'sub) hmbig hm'rid
      subst hm'eq
      exact .step (ihm hm'sub) hx hedge hne
    · have hmbig : m ∈ t := (provClosure_mem hm).elim (fun h => h ▸ hc) id
      have hqm : ProvClosure t m q := .step .refl hqmem hedge hne
      exact absurd (List.mem_map_of_mem _ hx) (hgone m hmbig hmin q hqmem hqm)

/-- Invariant of the `for (const provided of providedDevices)` loop of
`removeDevice`: running the loop over a duplicate-free suffix `l` of `d`'s
children, starting from a state whose removals so far are exactly the
closures of the already-processed children `D`, ends in a state whose
removals are exactly the closures of `D` plus the non-self children in `l`.
The fuel-level induction hypothesis `IH` supplies both cascade directions
for each recursive `removeDevice` call. -/
theorem removeLoop_cascade (nf : Nat → Bool) (rank : Nat → Nat) (fuel : Nat)
    (st : RState) (d : RDev)
    (hnodup : (st.table.map RDev.rid).Nodup)
    (hrank : ProviderRank st.table rank)
    (hd : d ∈ st.table)
    (IH : ∀ (s : RState) (c : RDev) (s' : RState),
      removeDevice nf fuel s c = some s' →
      (s.table.map RDev.rid).Nodup → ProviderRank s.table rank → c ∈ s.table →
      (∀ x ∈ s.table, ProvClosure s.table c x → x.rid ∉ s'.table.map RDev.rid) ∧
      (∀ y ∈ s.table, y.rid ∉ s'.table.map RDev.rid → ProvClosure s.table c y)) :
    ∀ (l : List RDev) (D : RDev → Prop) (s st1 : RState),
      (∀ p ∈ l, p ∈ st.table ∧ p.providerId = some d.rid) →
      l.Nodup →
      (∀ c, D c → c ∈ st.table ∧ c.providerId = some d.rid ∧ c.rid ≠ d.rid ∧ c ∉ l) →
      s.table.Sublist st.table →
      (∀ y ∈ st.table, y.rid ∉ s.table.map RDev.rid →
        ∃ c, D c ∧ ProvClosure st.table c y) →
      (∀ c, D c → ∀ x ∈ st.table, ProvClosure st.table c x →
        x.rid ∉ s.table.map RDev.rid) →
      removeProvided (removeDevice nf fuel) d.rid s l = some st1 →
      st1.table.Sublist st.table ∧
      (∀ y ∈ st.table, y.rid ∉ st1.table.map RDev.rid →
        ∃ c, (D c ∨ (c ∈ l ∧ c.rid ≠ d.rid)) ∧ ProvClosure st.table c y) ∧
      (∀ c, (D c ∨ (c ∈ l ∧ c.rid ≠ d.rid)) → ∀ x ∈ st.table,
        ProvClosure st.table c x → x.rid ∉ st1.table.map RDev.rid) := by
  intro l
  induction l with
  | nil =>
    intro D s st1 hl hnd hD hsub hii hiii hrun
    rw [removeProvided] at hrun
    have hs := Option.some.inj hrun
    subst hs
    refine ⟨hsub, ?_, ?_⟩
    · intro y hy hyr
      obtain ⟨c, hc, hcy⟩ := hii y hy hyr
      exact ⟨c, .inl hc, hcy⟩
    · rintro c (hc | ⟨hcl, _⟩) x hx hcx
      · exact hiii c hc x hx hcx
      · exact absurd hcl (List.not_mem_nil _)
  | cons p ps ihl =>
    intro D s st1 hl hnd hD hsub hii hiii hrun
    rw [removeProvided] at hrun
    by_cases hself : p.rid = d.rid
    · rw [if_pos hself] at hrun
      have hps := ihl D s st1 (fun q hq => hl q (.tail _ hq)) hnd.of_cons
        (fun c hc => ⟨(hD c hc).1, (hD c hc).2.1, (hD c hc).2.2.1,
          fun h => (hD c hc).2.2.2 (.tail _ h)⟩)
        hsub hii hiii hrun
      refine ⟨hps.1, ?_, ?_⟩
      · intro y hy hyr
        obtain ⟨c, hc, hcy⟩ := hps.2.1 y hy hyr
        rcases hc with hc | ⟨hcl, hcr⟩
        · exact ⟨c, .inl hc, hcy⟩
        · exact ⟨c, .inr ⟨.tail _ hcl, hcr⟩, hcy⟩
      · rintro c (hc | ⟨hcl, hcr⟩) x hx hcx
        · exact hps.2.2 c (.inl hc) x hx hcx
        · rcases List.mem_cons.mp hcl with rfl | hcl'
          · exact absurd hself hcr
          · exact hps.2.2 c (.inr ⟨hcl', hcr⟩) x hx hcx
    · rw [if_neg hself] at hrun
      rcases hstep : removeDevice nf fuel s p with _ | s'
      · rw [hstep] at hrun
        exact absurd hrun (by simp)
      · rw [hstep] at hrun
        have hpl := hl p (.head _)
        -- the current child survived all earlier siblings
        have hpmem : p ∈ s.table := by
          by_cases hin : p.rid ∈ s.table.map RDev.rid
          · obtain ⟨p', hp', hp'r⟩ := List.mem_map.mp hin
            have hpe : p' = p := rid_inj hnodup (hsub.subset hp') hpl.1 hp'r
            exact hpe ▸ hp'
          · exfalso
            obtain ⟨c₀, hc₀D, hc₀p⟩ := hii p hpl.1 hin
            rcases provClosure_last hc₀p with rfl | ⟨m, hc₀m, hpt, hpedge, hpne⟩
            · exact (hD p hc₀D).2.2.2 (.head _)
            · have hmd : m.rid = d.rid := by
                rw [hpl.2] at hpedge
                exact (Option.some.inj hpedge).symm
              have hmt : m ∈ st.table :=
                (provClosure_mem hc₀m).elim (fun h => h ▸ (hD c₀ hc₀D).1) id
              have hmeq : m = d := rid_inj hnodup hmt hd hmd
              subst hmeq
              rcases provClosure_rank hrank hc₀m with rfl | hlt
              · exact (hD m hc₀D).2.2.1 rfl
              · have hop : rank c₀.rid < rank m.rid :=
                  hrank c₀ (hD c₀ hc₀D).1 m.rid (hD c₀ hc₀D).2.1 (hD c₀ hc₀D).2.2.1
                omega
        have hnodup_s : (s.table.map RDev.rid).Nodup :=
          List.Nodup.sublist (hsub.map _) hnodup
        have hrank_s : ProviderRank s.table rank := fun q hq pid hpid hne =>
          hrank q (hsub.subset hq) pid hpid hne
        obtain ⟨hC, hB⟩ := IH s p s' hstep hnodup_s hrank_s hpmem
        have hsub' : s'.table.Sublist s.table :=
          (removeDevice_shape nf fuel s p s' hstep).1
        have hgone : ∀ y ∈ st.table, y.rid ∉ s.table.map RDev.rid →
            ∀ z ∈ st.table, ProvClosure st.table y z →
            z.rid ∉ s.table.map RDev.rid := by
          intro y hy hyr z hz hyz
          obtain ⟨c₀, hc₀, hc₀y⟩ := hii y hy hyr
          exact hiii c₀ hc₀ z hz (provClosure_compose hc₀y hyz)
        have hsubJ : s'.table.Sublist st.table := hsub'.trans hsub
        have hiiJ : ∀ y ∈ st.table, y.rid ∉ s'.table.map RDev.rid →
            ∃ c, (D c ∨ c = p) ∧ ProvClosure st.table c y := by
          intro y hy hyr
          by_cases hys : y.rid ∈ s.table.map RDev.rid
          · obtain ⟨y', hy', hy'r⟩ := List.mem_map.mp hys
            have hyeq : y' = y := rid_inj hnodup (hsub.subset hy') hy hy'r
            subst hyeq
            have hcl := hB y' hy' hyr
            exact ⟨p, .inr rfl, provClosure_mono (fun z hz => hsub.subset hz) hcl⟩
          · obtain ⟨c, hc, hcy⟩ := hii y hy hys
            exact ⟨c, .inl hc, hcy⟩
        have hiiiJ : ∀ c, (D c ∨ c = p) → ∀ x ∈ st.table,
            ProvClosure st.table c x → x.rid ∉ s'.table.map RDev.rid := by
          rintro c (hc | rfl) x hx hcx
          · intro hxin
            exact hiii c hc x hx hcx ((hsub'.map _).subset hxin)
          · by_cases hxs : x.rid ∈ s.table.map RDev.rid
            · obtain ⟨x', hx', hx'r⟩ := List.mem_map.mp hxs
              have hxeq : x' = x := rid_inj hnodup (hsub.subset hx') hx hx'r
              subst hxeq
              have hxsub : ProvClosure s.table c x' :=
                provClosure_transfer hnodup hsub hgone hcx hpl.1 hx'
              exact hC x' hx' hxsub
            · intro hxin
              exact hxs ((hsub'.map _).subset hxin)
        have hres := ihl (fun c => D c ∨ c = p) s' st1
          (fun q hq => hl q (.tail _ hq)) hnd.of_cons
          (fun c hc => by
            rcases hc with hc | rfl
            · exact ⟨(hD c hc).1, (hD c hc).2.1, (hD c hc).2.2.1,
                fun h => (hD c hc).2.2.2 (.tail _ h)⟩
            · exact ⟨hpl.1, hpl.2, hself, (List.nodup_cons.mp hnd).1⟩)
          hsubJ hiiJ hiiiJ hrun
        refine ⟨hres.1, ?_, ?_⟩
        · intro y hy hyr
          obtain ⟨c, hc, hcy⟩ := hres.2.1 y hy hyr
          rcases hc with (hc | rfl) | ⟨hcl, hcr⟩
          · exact ⟨c, .inl hc, hcy⟩
          · exact ⟨c, .inr ⟨.head _, hself⟩, hcy⟩
          · exact ⟨c, .inr ⟨.tail _ hcl, hcr⟩, hcy⟩
        · rintro c (hc | ⟨hcl, hcr⟩) x hx hcx
          · exact hres.2.2 c (.inl (.inl hc)) x hx hcx
          · rcases List.mem_cons.mp hcl with rfl | hcl'
            · exact hres.2.2 c (.inl (.inr rfl)) x hx hcx
            · exact hres.2.2 c (.inr ⟨hcl', hcr⟩) x hx hcx

/-- Cascade characterization of `removeDevice`: on a table with unique ids
and an acyclic (up to self-loops) provider relation, a successful removal
deletes from the table exactly the ids of the provided-closure of the
removed device. -/
theorem removeDevice_cascade (nf : Nat → Bool) (rank : Nat → Nat) :
    ∀ (fuel : Nat) (st : RState) (d : RDev) (st' : RState),
      removeDevice nf fuel st d = some st' →
      (st.table.map RDev.rid).Nodup → ProviderRank st.table rank →
      d ∈ st.table →
      (∀ x ∈ st.table, ProvClosure st.table d x → x.rid ∉ st'.table.map RDev.rid) ∧
      (∀ y ∈ st.table, y.rid ∉ st'.table.map RDev.rid → ProvClosure st.table d y) := by
  intro fuel
  induction fuel with
  | zero =>
    intro st d st' h
    simp [removeDevice] at h
  | succ fuel ih =>
    intro st d st' h hnodup hrank hd
    simp only [removeDevice] at h
    split at h
    · exact absurd h (by simp)
    · rename_i st1 hrp
      have hl : ∀ p ∈ st.table.filter (fun p => p.providerId = some d.rid),
          p ∈ st.table ∧ p.providerId = some d.rid := by
        intro p hp
        have hm := List.mem_filter.mp hp
        exact ⟨hm.1, by simpa using hm.2⟩
      have hndl : (st.table.filter (fun p => p.providerId = some d.rid)).Nodup :=
        (List.Nodup.of_map _ hnodup).filter _
      have hloop := removeLoop_cascade nf rank fuel st d hnodup hrank hd
        (fun s c s' h1 h2 h3 h4 => ih s c s' h1 h2 h3 h4)
        (st.table.filter (fun p => p.providerId = some d.rid))
        (fun _ => False) st st1 hl hndl (fun c hc => hc.elim)
        (List.Sublist.refl _)
        (fun y hy hyr => absurd (List.mem_map_of_mem _ hy) hyr)
        (fun c hc => hc.elim) hrp
      have htab : st'.table = st1.table.filter (fun e => e.rid ≠ d.rid) := by
        split at h <;> exact (Option.some.inj h).symm ▸ rfl
      constructor
      · intro x hx hcx
        rcases provClosure_first_step hcx with rfl | ⟨c, hct, hcp, hcne, hcx'⟩
        · intro hin
          rw [htab] at hin
          obtain ⟨e, he, her⟩ := List.mem_map.mp hin
          have := List.mem_filter.mp he
          simp [her] at this
        · have hc_l : c ∈ st.table.filter (fun p => p.providerId = some d.rid) :=
            List.mem_filter.mpr ⟨hct, by simp [hcp]⟩
          have hx1 := hloop.2.2 c (.inr ⟨hc_l, hcne⟩) x hx hcx'
          intro hin
          rw [htab] at hin
          obtain ⟨e, he, her⟩ := List.mem_map.mp hin
          exact hx1 (her ▸ List.mem_map_of_mem _ (List.mem_of_mem_filter he))
      · intro y hy hyr
        by_cases hyd : y.rid = d.rid
        · have hye : y = d := rid_inj hnodup hy hd hyd
          exact hye ▸ .refl
        · have hyr1 : y.rid ∉ st1.table.map RDev.rid := by
            intro hin
            obtain ⟨e, he, her⟩ := List.mem_map.mp hin
            refine hyr ?_
            rw [htab]
            refine List.mem_map.mpr ⟨e, List.mem_filter.mpr ⟨he, ?_⟩, her⟩
            simp [her, hyd]
          obtain ⟨c, hc, hcy⟩ := hloop.2.1 y hy hyr1
          rcases hc with hc | ⟨hcl, hcne⟩
          · exact hc.elim
          · have hcm := hl c hcl
            exact provClosure_compose (.step .refl hcm.1 hcm.2 hcne) hcy

/-- Two states have the same bookkeeping core exactly when every field but
the notification log agrees. -/
theorem core_eq_iff (s s' : RState) : s.core = s'.core ↔
    (s.table = s'.table ∧ s.storeDevices = s'.storeDevices ∧
     s.storePlugins = s'.storePlugins ∧ s.runningPlugins = s'.runningPlugins ∧
     s.volumes = s'.volumes ∧ s.invalidated = s'.invalidated ∧
     s.stateRemoved = s'.stateRemoved ∧ s.mixinInvalidated = s'.mixinInvalidated ∧
     s.pluginKills = s'.pluginKills ∧
     s.pluginRecordsDeleted = s'.pluginRecordsDeleted ∧
     s.volumesDeleted = s'.volumesDeleted) := by
  cases s
  cases s'
  simp [RState.core]

/-- The bookkeeping core of a removal does not depend on the notification
oracle: runs under two oracles from core-equal states fail together or
succeed with core-equal results. -/
theorem removeDevice_core_oracle (nf nf' : Nat → Bool) :
    ∀ (fuel : Nat) (s s' : RState) (d : RDev), s.core = s'.core →
      (removeDevice nf fuel s d).map RState.core =
      (removeDevice nf' fuel s' d).map RState.core := by
  intro fuel
  induction fuel with
  | zero => intro s s' d h; rfl
  | succ fuel ih =>
    intro s s' d hcore
    have htab : s.table = s'.table := (core_eq_iff s s').mp hcore |>.1
    have hloop : ∀ (l : List RDev) (t t' : RState), t.core = t'.core →
        (removeProvided (removeDevice nf fuel) d.rid t l).map RState.core =
        (removeProvided (removeDevice nf' fuel) d.rid t' l).map RState.core := by
      intro l
      induction l with
      | nil =>
        intro t t' h
        simp only [removeProvided, Option.map_some]
        exact congrArg some h
      | cons p ps ihp =>
        intro t t' h
        by_cases hp : p.rid = d.rid
        · rw [removeProvided, removeProvided, if_pos hp, if_pos hp]
          exact ihp t t' h
        · rw [removeProvided, removeProvided, if_neg hp, if_neg hp]
          have hstep := ih t t' p h
          rcases h1 : removeDevice nf fuel t p with _ | u
          · rw [h1] at hstep
            rcases h2 : removeDevice nf' fuel t' p with _ | u'
            · rfl
            · rw [h2] at hstep
              simp at hstep
          · rw [h1] at hstep
            rcases h2 : removeDevice nf' fuel t' p with _ | u'
            · rw [h2] at hstep
              simp at hstep
            · rw [h2] at hstep
              have hu : u.core = u'.core := by simpa using hstep
              exact ihp u u' hu
    have hmain := hloop (s.table.filter (fun p => p.providerId = some d.rid)) s s' hcore
    simp only [removeDevice]
    rw [← htab]
    rcases hr1 : removeProvided (removeDevice nf fuel) d.rid s
        (s.table.filter (fun p => p.providerId = some d.rid)) with _ | t1
    · rw [hr1] at hmain
      rcases hr2 : removeProvided (removeDevice nf' fuel) d.rid s'
          (s.table.filter (fun p => p.providerId = some d.rid)) with _ | t1'
      · rfl
      · rw [hr2] at hmain
        simp at hmain
    · rw [hr1] at hmain
      rcases hr2 : removeProvided (removeDevice nf' fuel) d.rid s'
          (s.table.filter (fun p => p.providerId = some d.rid)) with _ | t1'
      · rw [hr2] at hmain
        simp at hmain
      · rw [hr2] at hmain
        have ht1 : t1.core = t1'.core := by simpa using hmain
        obtain ⟨e1, e2, e3, e4, e5, e6, e7, e8, e9, e10, e11⟩ := (core_eq_iff t1 t1').mp ht1
        by_cases hroot : isFalsyNativeId d.nativeId = true
        · simp only [if_pos hroot, Option.map_some]
          refine congrArg some ((core_eq_iff _ _).mpr ?_)
          simp [removeBookkeeping, e1, e2, e3, e4, e5, e6, e7, e8, e9, e10, e11]
        · simp only [if_neg hroot, Option.map_some]
          refine congrArg some ((core_eq_iff _ _).mpr ?_)
          simp [removeBookkeeping, e1, e2, e3, e4, e5, e6, e7, e8, e9, e10, e11]

/-- Termination: with a provider rank function (no provider cycle other
than self-loops) and fuel above the rank of the removed device, the fuelled
recursion always completes. -/
theorem removeDevice_total (nf : Nat → Bool) (rank : Nat → Nat) :
    ∀ (fuel : Nat) (st : RState) (d : RDev), ProviderRank st.table rank →
      rank d.rid < fuel → ∃ st', removeDevice nf fuel st d = some st' := by
  intro fuel
  induction fuel with
  | zero =>
    intro st d _ h
    exact absurd h (by omega)
  | succ fuel ih =>
    intro st d hpr hlt
    have hloop : ∀ (l : List RDev),
        (∀ p ∈ l, p ∈ st.table ∧ p.providerId = some d.rid) →
        ∀ s : RState, ProviderRank s.table rank →
        ∃ s1, removeProvided (removeDevice nf fuel) d.rid s l = some s1 := by
      intro l
      induction l with
      | nil =>
        intro _ s _
        exact ⟨s, rfl⟩
      | cons p ps ihl =>
        intro hmem s hprs
        by_cases hself : p.rid = d.rid
        · rw [removeProvided, if_pos hself]
          exact ihl (fun q hq => hmem q (.tail _ hq)) s hprs
        · rw [removeProvided, if_neg hself]
          have hp := hmem p (.head _)
          have hrk : rank p.rid < rank d.rid := hpr p hp.1 d.rid hp.2 hself
          obtain ⟨s', hs'⟩ := ih s p hprs (by omega)
          rw [hs']
          have hshape := removeDevice_shape nf fuel s p s' hs'
          have hprs' : ProviderRank s'.table rank := fun q hq pid hpid hne =>
            hprs q (hshape.1.subset hq) pid hpid hne
          obtain ⟨s1, h1⟩ := ihl (fun q hq => hmem q (.tail _ hq)) s' hprs'
          exact ⟨s1, h1⟩
    obtain ⟨st1, hst1⟩ := hloop (st.table.filter (fun p => p.providerId = some d.rid))
      (fun p hp => ⟨(List.mem_filter.mp hp).1, by simpa using (List.mem_filter.mp hp).2⟩)
      st hpr
    have hs : (removeDevice nf (fuel + 1) st d).isSome = true := by
      by_cases hroot : isFalsyNativeId d.nativeId = true <;>
        simp [removeDevice, hst1, hroot]
    obtain ⟨st', hst'⟩ := Option.isSome_iff_exists.mp hs
    exact ⟨st', hst'⟩

/-- C5: `removeDevice(d)` first recursively removes every device whose
`providerId` points transitively to `d` — exactly the ids of the
provided-closure leave the in-memory table — then drops `d`'s record from
the table and the datastore, unregisters it from the state manager and
invalidates mixin chains referencing it; it kills the plugin host, deletes
the Plugin record and the on-disk plugin volume exactly when `d` has a
falsy `nativeId`, and otherwise only notifies the owning plugin, recording
whether the notification succeeded; and the entire bookkeeping core of the
result is independent of the notification-failure oracle, so a notification
failure prevents none of the removal bookkeeping. -/
theorem removeDevice_spec (nf nf' : Nat → Bool) (rank : Nat → Nat)
    (fuel : Nat) (st : RState) (d : RDev) (st' : RState)
    (hrun : removeDevice nf fuel st d = some st')
    (hnodup : (st.table.map RDev.rid).Nodup)
    (hrank : ProviderRank st.table rank)
    (hd : d ∈ st.table) :
    (∀ y ∈ st.table, (y.rid ∉ st'.table.map RDev.rid ↔ ProvClosure st.table d y)) ∧
    d.rid ∉ st'.table.map RDev.rid ∧
    d.rid ∉ st'.storeDevices ∧
    d.rid ∈ st'.invalidated ∧
    d.rid ∈ st'.stateRemoved ∧
    d.rid ∈ st'.mixinInvalidated ∧
    (∃ fuel0 st1, fuel = fuel0 + 1 ∧
      removeProvided (removeDevice nf fuel0) d.rid st
        (st.table.filter (fun p => p.providerId = some d.rid)) = some st1 ∧
      ((isFalsyNativeId d.nativeId = true ∧
        st' = { removeBookkeeping st1 d with
          runningPlugins := (removeBookkeeping st1 d).runningPlugins.filter (· ≠ d.pluginId)
          pluginKills := (removeBookkeeping st1 d).pluginKills ++ [d.pluginId]
          storePlugins := (removeBookkeeping st1 d).storePlugins.filter (· ≠ d.pluginId)
          pluginRecordsDeleted := (removeBookkeeping st1 d).pluginRecordsDeleted ++ [d.pluginId]
          volumes := (removeBookkeeping st1 d).volumes.filter (· ≠ d.pluginId)
          volumesDeleted := (removeBookkeeping st1 d).volumesDeleted ++ [d.pluginId] }) ∨
       (isFalsyNativeId d.nativeId = false ∧
        st' = { removeBookkeeping st1 d with
          notifications := (removeBookkeeping st1 d).notifications ++
            [(d.rid, !nf d.rid)] }))) ∧
    Option.map RState.core (removeDevice nf' fuel st d) = some st'.core := by
  obtain ⟨fuel0, rfl⟩ : ∃ fuel0, fuel = fuel0 + 1 := by
    cases fuel with
    | zero => simp [removeDevice] at hrun
    | succ n => exact ⟨n, rfl⟩
  have hcas := removeDevice_cascade nf rank (fuel0 + 1) st d st' hrun hnodup hrank hd
  have hrun' := hrun
  simp only [removeDevice] at hrun'
  split at hrun'
  · exact absurd hrun' (by simp)
  · rename_i st1 hrp
    have hbr : (isFalsyNativeId d.nativeId = true ∧
        st' = { removeBookkeeping st1 d with
          runningPlugins := (removeBookkeeping st1 d).runningPlugins.filter (· ≠ d.pluginId)
          pluginKills := (removeBookkeeping st1 d).pluginKills ++ [d.pluginId]
          storePlugins := (removeBookkeeping st1 d).storePlugins.filter (· ≠ d.pluginId)
          pluginRecordsDeleted := (removeBookkeeping st1 d).pluginRecordsDeleted ++ [d.pluginId]
          volumes := (removeBookkeeping st1 d).volumes.filter (· ≠ d.pluginId)
          volumesDeleted := (removeBookkeeping st1 d).volumesDeleted ++ [d.pluginId] }) ∨
        (isFalsyNativeId d.nativeId = false ∧
        st' = { removeBookkeeping st1 d with
          notifications := (removeBookkeeping st1 d).notifications ++
            [(d.rid, !nf d.rid)] }) := by
      split at hrun'
      · rename_i hroot
        exact .inl ⟨hroot, (Option.some.inj hrun').symm⟩
      · rename_i hroot
        exact .inr ⟨by simpa using hroot, (Option.some.inj hrun').symm⟩
    have horacle : Option.map RState.core (removeDevice nf' (fuel0 + 1) st d) =
        some st'.core := by
      have h := removeDevice_core_oracle nf' nf (fuel0 + 1) st st d rfl
      rw [hrun] at h
      simpa using h
    refine ⟨fun y hy => ⟨hcas.2 y hy, hcas.1 y hy⟩,
      hcas.1 d hd .refl, ?_, ?_, ?_, ?_, ⟨fuel0, st1, rfl, hrp, hbr⟩, horacle⟩
    all_goals rcases hbr with ⟨hroot, rfl⟩ | ⟨hroot, rfl⟩ <;>
      simp [removeBookkeeping]

/-- C5 witness: removing plugin root 1 of the concrete table with chain
1 ← 2 ← 3 and unrelated root 4 deletes grandchild 3 (a provided-closure
member) and logs the invalidation of 1. -/
theorem removeDevice_spec_witness :
    ProvClosure w5st.table w5d ⟨3, 7, some 6, some 2⟩ ∧
    (3 : Nat) ∉ w5res.table.map RDev.rid ∧
    (1 : Nat) ∈ w5res.invalidated := by
  have hc2 : ProvClosure w5st.table w5d ⟨2, 7, some 5, some 1⟩ :=
    @ProvClosure.step w5st.table w5d w5d ⟨2, 7, some 5, some 1⟩ .refl
      (by decide) rfl (by decide)
  have hcl : ProvClosure w5st.table w5d ⟨3, 7, some 6, some 2⟩ :=
    @ProvClosure.step w5st.table w5d ⟨2, 7, some 5, some 1⟩ ⟨3, 7, some 6, some 2⟩
      hc2 (by decide) rfl (by decide)
  have h := removeDevice_spec (fun _ => true) (fun _ => false) w5rank 5 w5st w5d w5res
    (by decide) (by decide) (by simp [ProviderRank, w5st, w5rank, w5d]) (by decide)
  exact ⟨hcl, (h.1 ⟨3, 7, some 6, some 2⟩ (by decide)).mpr hcl, h.2.2.2.1⟩

/-- C10: on a finite table whose provider relation has no cycle other than
self-loops (witnessed by a rank function that strictly decreases along
non-self provider edges), `removeDevice` terminates — it returns a result
once the fuel exceeds the rank of the removed device — and the
provided-devices loop skips every entry whose id equals the removed
device's id (the `provided === device` guard), so a self-referential
provider edge never causes infinite recursion. -/
theorem removeDevice_terminates (nf : Nat → Bool) (rank : Nat → Nat)
    (st : RState) (d : RDev) (fuel : Nat)
    (hrank : ProviderRank st.table rank)
    (hfuel : rank d.rid < fuel) :
    (∃ st', removeDevice nf fuel st d = some st') ∧
    ∀ (step : RState → RDev → Option RState) (s : RState) (p : RDev)
      (ps : List RDev), p.rid = d.rid →
      removeProvided step d.rid s (p :: ps) = removeProvided step d.rid s ps := by
  refine ⟨removeDevice_total nf rank fuel st d hrank hfuel, ?_⟩
  intro step s p ps hp
  rw [removeProvided, if_pos hp]

/-- C10 witness: the concrete table whose root carries a self-loop provider
edge is removed successfully within rank-bounded fuel, and the loop skips
the self-loop entry. -/
theorem removeDevice_terminates_witness :
    (∃ st', removeDevice (fun _ => false) 2 w10st w10d = some st') ∧
    removeProvided (fun s _ => some s) w10d.rid w10st [w10d] =
      removeProvided (fun s _ => some s) w10d.rid w10st [] := by
  have h := removeDevice_terminates (fun _ => false) w10rank w10st w10d 2
    (by simp [ProviderRank, w10st, w10rank, w10d]) (by decide)
  exact ⟨h.1, h.2 _ w10st w10d [] rfl⟩

end Scrypted
